import Mathlib

/-!
# UserStore: the per-user record store of `server.js`

A shallow embedding of the five request handlers of `src/server.js`
(`GET /api/user/:id`, `POST /api/user/:id`, `POST /api/user/:id/message`,
`GET /api/admin/users`, `POST /api/admin/broadcast`) together with the parts of
the JavaScript runtime they rely on.

Modelling choices.

* JSON documents, as `JSON.stringify` writes them, are the values of `Json`; a
  number `num q` is the finite double of value `q`.  A request body, as the body
  parser hands it over, is a value of `Body`, which also has the two infinities
  that a number literal beyond the range of a double parses to; `Body.written`
  is what `JSON.stringify` writes for it (`null` for an infinity).  A value read
  from a JavaScript expression that may be `undefined` is an `Option`, with
  `none` for `undefined`.
* Objects are association lists.  A property read takes the last binding of a
  key, which is what `JSON.parse` does with a repeated key.  The relative order of
  the keys of an object is kept as a list order and no statement depends on it.
* The text of a file is kept up to what `JSON.parse` makes of it
  (`Text.json v` for a text that parses to the document `v`, `Text.garbage` for a
  text on which `JSON.parse` throws), so that `JSON.parse (JSON.stringify v) = v`
  for a document `v`.  The texts are those whose numbers a double holds, as are
  all texts `JSON.stringify` writes.
* The file system is a map from normalised absolute paths to nodes; a directory
  node carries the list of names `readdir` returns for it.  `path.join` follows
  the POSIX rules (empty and `.` segments dropped, `..` removes a segment).
  Node rejects a path that holds the character U+0000 before it reaches the file
  system, so no node lives at such a path and the rejection shows where a node
  would be created.  Limits of the operating system (name lengths, permissions,
  disk space) are not part of the model.
* Every `new Date().toISOString()` is an argument of the handler that makes the
  call.
-/

namespace UserStore

/-! ## JSON values -/

/-- JSON documents, as `JSON.stringify` writes them and `JSON.parse` reads them
back; `num q` is the finite double of value `q`. -/
inductive Json where
  | null
  | bool (b : Bool)
  | num (n : ℚ)
  | str (s : String)
  | arr (items : List Json)
  | obj (fields : List (String × Json))

namespace Json

mutual
/-- Structural equality test on documents. -/
def beq : Json → Json → Bool
  | .null, .null => true
  | .bool a, .bool b => a == b
  | .num a, .num b => a == b
  | .str a, .str b => a == b
  | .arr xs, .arr ys => beqList xs ys
  | .obj xs, .obj ys => beqFields xs ys
  | _, _ => false
/-- Structural equality test on lists of documents. -/
def beqList : List Json → List Json → Bool
  | [], [] => true
  | x :: xs, y :: ys => beq x y && beqList xs ys
  | _, _ => false
/-- Structural equality test on lists of bindings. -/
def beqFields : List (String × Json) → List (String × Json) → Bool
  | [], [] => true
  | (k, x) :: xs, (l, y) :: ys => k == l && beq x y && beqFields xs ys
  | _, _ => false
end

mutual
theorem beq_eq : ∀ a b : Json, beq a b = true → a = b
  | .null, .null, _ => rfl
  | .bool a, .bool b, h => by simp [beq] at h; simp [h]
  | .num a, .num b, h => by simp [beq] at h; simp [h]
  | .str a, .str b, h => by simp [beq] at h; simp [h]
  | .arr xs, .arr ys, h => by simp [beq] at h; simp [beqList_eq xs ys h]
  | .obj xs, .obj ys, h => by simp [beq] at h; simp [beqFields_eq xs ys h]
  | .null, .bool _, h | .null, .num _, h | .null, .str _, h | .null, .arr _, h
  | .null, .obj _, h => by simp [beq] at h
  | .bool _, .null, h | .bool _, .num _, h | .bool _, .str _, h | .bool _, .arr _, h
  | .bool _, .obj _, h => by simp [beq] at h
  | .num _, .null, h | .num _, .bool _, h | .num _, .str _, h | .num _, .arr _, h
  | .num _, .obj _, h => by simp [beq] at h
  | .str _, .null, h | .str _, .bool _, h | .str _, .num _, h | .str _, .arr _, h
  | .str _, .obj _, h => by simp [beq] at h
  | .arr _, .null, h | .arr _, .bool _, h | .arr _, .num _, h | .arr _, .str _, h
  | .arr _, .obj _, h => by simp [beq] at h
  | .obj _, .null, h | .obj _, .bool _, h | .obj _, .num _, h | .obj _, .str _, h
  | .obj _, .arr _, h => by simp [beq] at h
theorem beqList_eq : ∀ xs ys : List Json, beqList xs ys = true → xs = ys
  | [], [], _ => rfl
  | x :: xs, y :: ys, h => by
      simp [beqList] at h
      simp [beq_eq x y h.1, beqList_eq xs ys h.2]
  | [], _ :: _, h => by simp [beqList] at h
  | _ :: _, [], h => by simp [beqList] at h
theorem beqFields_eq : ∀ xs ys : List (String × Json), beqFields xs ys = true → xs = ys
  | [], [], _ => rfl
  | (k, x) :: xs, (l, y) :: ys, h => by
      simp [beqFields] at h
      simp [h.1.1, beq_eq x y h.1.2, beqFields_eq xs ys h.2]
  | [], _ :: _, h => by simp [beqFields] at h
  | _ :: _, [], h => by simp [beqFields] at h
end

mutual
theorem beq_refl : ∀ a : Json, beq a a = true
  | .null => rfl
  | .bool a => by simp [beq]
  | .num a => by simp [beq]
  | .str a => by simp [beq]
  | .arr xs => by simp [beq, beqList_refl xs]
  | .obj xs => by simp [beq, beqFields_refl xs]
theorem beqList_refl : ∀ xs : List Json, beqList xs xs = true
  | [] => rfl
  | x :: xs => by simp [beqList, beq_refl x, beqList_refl xs]
theorem beqFields_refl : ∀ xs : List (String × Json), beqFields xs xs = true
  | [] => rfl
  | (k, x) :: xs => by simp [beqFields, beq_refl x, beqFields_refl xs]
end

instance : DecidableEq Json := fun a b =>
  if h : beq a b = true then isTrue (beq_eq a b h)
  else isFalse (fun e => h (e ▸ beq_refl a))

end Json

open Json

/-- JavaScript truthiness of a value that may be `undefined`: `undefined`, `null`,
`false`, `0` and the empty string are falsy, everything else is truthy. -/
def truthy : Option Json → Bool
  | none => false
  | some .null => false
  | some (.bool b) => b
  | some (.num n) => n != 0
  | some (.str s) => s != ""
  | some (.arr _) => true
  | some (.obj _) => true

/-- Own property `key` of an object given by its bindings; the last binding of a
repeated key wins. -/
def getField {α : Type} : List (String × α) → String → Option α
  | [], _ => none
  | (k, v) :: rest, key => (getField rest key).or (if k = key then some v else none)

/-- Whether the object has an own property `key`. -/
def hasField {α : Type} (kvs : List (String × α)) (key : String) : Bool :=
  kvs.any (fun kv => kv.1 == key)

/-- Property assignment `o[key] = v`: an existing key keeps its place, a new key
goes last. -/
def setField (kvs : List (String × Json)) (key : String) (v : Json) : List (String × Json) :=
  if hasField kvs key then kvs.map (fun kv => if kv.1 = key then (kv.1, v) else kv)
  else kvs ++ [(key, v)]

/-- Property read `v.key` on a document, for a key that does not live on a
prototype (`messages`): `none` is `undefined`. -/
def field : Json → String → Option Json
  | .obj kvs, key => getField kvs key
  | _, _ => none

/-- Own enumerable properties copied by an object spread `...v`: the bindings of an
object, the indexed elements of an array, the indexed characters of a string, and
nothing for `null`, booleans and numbers. -/
def ownEntries : Json → List (String × Json)
  | .obj kvs => kvs
  | .arr xs => xs.enum.map (fun ix => (toString ix.1, ix.2))
  | .str s => s.toList.enum.map (fun ix => (toString ix.1, .str (String.singleton ix.2)))
  | _ => []

/-- Object literal built from a sequence of bindings, later bindings overwriting
earlier ones. -/
def objectLiteral (entries : List (String × Json)) : List (String × Json) :=
  entries.foldl (fun acc kv => setField acc kv.1 kv.2) []

/-- The expression `{ ...user, ...data, id }` of the update handler, on the
documents `JSON.stringify` writes for `user` and `data`. -/
def mergeUser (user data : Json) (id : String) : Json :=
  .obj (objectLiteral (ownEntries user ++ ownEntries data ++ [("id", .str id)]))

/-- Binding of an object literal whose value may be `undefined`; `JSON.stringify`
leaves such a binding out. -/
def optField (key : String) : Option Json → List (String × Json)
  | none => []
  | some v => [(key, v)]

/-- Value of a request body as the body parser hands it over: a JSON value whose
numbers are doubles; a number literal beyond the range of a double (`1e999`) is
an infinity. -/
inductive Body where
  | null
  | bool (b : Bool)
  | num (n : ℚ)
  | inf (negative : Bool)
  | str (s : String)
  | arr (items : List Body)
  | obj (fields : List (String × Body))

mutual
/-- The document `JSON.stringify` writes for a value: an infinity is written as
`null`, everything else as it is. -/
def Body.written : Body → Json
  | .null => .null
  | .bool b => .bool b
  | .num n => .num n
  | .inf _ => .null
  | .str s => .str s
  | .arr xs => .arr (Body.writtenList xs)
  | .obj kvs => .obj (Body.writtenFields kvs)
/-- The documents written for the elements of an array. -/
def Body.writtenList : List Body → List Json
  | [] => []
  | x :: xs => Body.written x :: Body.writtenList xs
/-- The bindings written for the bindings of an object. -/
def Body.writtenFields : List (String × Body) → List (String × Json)
  | [] => []
  | (k, v) :: rest => (k, Body.written v) :: Body.writtenFields rest
end

/-- JavaScript truthiness of a value of a body that may be `undefined`; an
infinity is truthy. -/
def Body.truthy : Option Body → Bool
  | none => false
  | some .null => false
  | some (.bool b) => b
  | some (.num n) => n != 0
  | some (.inf _) => true
  | some (.str s) => s != ""
  | some (.arr _) => true
  | some (.obj _) => true

/-- Property read `body.key` on a request body, for the keys the handlers read
(`from`, `text`), none of which lives on a prototype: `none` is `undefined`. -/
def Body.field : Body → String → Option Body
  | .obj kvs, key => getField kvs key
  | _, _ => none

/-- The message literal `{ from, text, date: new Date().toISOString() }`, on the
documents written for `from` and `text`. -/
def mkMessage (frm text : Option Json) (date : String) : Json :=
  .obj (optField "from" frm ++ optField "text" text ++ [("date", .str date)])

/-- The two statements `user.messages = user.messages || []; user.messages.push(msg)`
followed by serialisation of `user`: the document that `JSON.stringify (user)` then
denotes, or `none` when a `TypeError` is thrown.  Reading a property of `null`
throws; on a boolean, number or string the assignment is dropped and `push` is
called on `undefined`; on an array the property `messages` is set but is not
serialised; on an object a truthy `messages` that is not an array has no callable
`push`. -/
def pushMessage (user : Json) (msg : Json) : Option Json :=
  match user with
  | .obj kvs =>
    if truthy (getField kvs "messages") then
      match getField kvs "messages" with
      | some (.arr xs) => some (.obj (setField kvs "messages" (.arr (xs ++ [msg]))))
      | _ => none
    else some (.obj (setField kvs "messages" (.arr [msg])))
  | .arr items => some (.arr items)
  | _ => none

/-! ## Paths and the file system -/

/-- Absolute normalised path, as its list of segments. -/
abbrev Path := List String

/-- Pieces of a character sequence between the slashes. -/
def splitSegs : List Char → List (List Char)
  | [] => [[]]
  | c :: cs =>
    if c = '/' then [] :: splitSegs cs
    else
      match splitSegs cs with
      | [] => [[c]]
      | s :: ss => (c :: s) :: ss

/-- Segments of a path string. -/
def splitPath (s : String) : List String :=
  (splitSegs s.toList).map String.mk

/-- One step of POSIX path normalisation on the reversed list of segments kept so
far: empty and `.` segments are dropped, `..` removes the last kept segment (and
is dropped at the root). -/
def normStep (stack : List String) (seg : String) : List String :=
  if seg = "" ∨ seg = "." then stack
  else if seg = ".." then stack.tail
  else seg :: stack

/-- The function `path.normalize` on the segments of an absolute path. -/
def normalize (segs : List String) : Path :=
  (segs.foldl normStep []).reverse

/-- The call `path.join (base, rel)` for an absolute `base`. -/
def pathJoin (base : Path) (rel : String) : Path :=
  normalize (base ++ splitPath rel)

/-- The constant `DATA_DIR = path.join (__dirname, "data", "users")`. -/
def DATA_DIR (dirname : Path) : Path :=
  normalize (dirname ++ ["data", "users"])

/-- The function `userFilePath`. -/
def userFilePath (dirname : Path) (id : String) : Path :=
  pathJoin (DATA_DIR dirname) (id ++ ".json")

/-- The test `f.endsWith (".json")`. -/
def endsWithJson (f : String) : Bool :=
  ".json".toList.isSuffixOf f.toList

/-- Text of a file, up to what `JSON.parse` makes of it. -/
inductive Text where
  | json (v : Json)
  | garbage
  deriving DecidableEq

/-- The function `JSON.parse`; `none` when it throws. -/
def jsonParse : Text → Option Json
  | .json v => some v
  | .garbage => none

/-- The function `JSON.stringify` on a document. -/
def jsonStringify (v : Json) : Text := .json v

/-- Node of the file system: a directory with the names `readdir` lists, or a file. -/
inductive Node where
  | dir (entries : List String)
  | file (text : Text)
  deriving DecidableEq

/-- File system: the node at each path, if any. -/
abbrev FS := Path → Option Node

/-- File system with the node at `p` replaced. -/
def FS.set (fs : FS) (p : Path) (n : Node) : FS :=
  fun q => if q = p then some n else fs q

/-- Whether a path holds the character U+0000, which makes every call of `fs`
reject its path argument. -/
def holdsNul (p : Path) : Bool :=
  p.any (fun s => s.toList.contains (Char.ofNat 0))

/-- Outcome of `fs.stat (p).then (() => true).catch (() => false)`. -/
def stat (fs : FS) (p : Path) : Bool :=
  (fs p).isSome

/-- The call `fs.readFile (p, "utf8")`; `none` when it rejects (no such file, or a
directory). -/
def readFile (fs : FS) (p : Path) : Option Text :=
  match fs p with
  | some (.file t) => some t
  | _ => none

/-- The call `fs.writeFile (p, t)`; `none` when it rejects (the path is a
directory, or it holds U+0000, or its parent is not an existing directory).  A new
file is added to the listing of its parent. -/
def writeFile (fs : FS) (p : Path) (t : Text) : Option FS :=
  match fs p with
  | some (.file _) => some (fs.set p (.file t))
  | some (.dir _) => none
  | none =>
    if holdsNul p then none
    else
      match p.getLast?, fs p.dropLast with
      | some name, some (.dir es) =>
        some ((fs.set p.dropLast (.dir (es ++ [name]))).set p (.file t))
      | _, _ => none

/-- The call `fs.readdir (p)`; `none` when it rejects. -/
def readdir (fs : FS) (p : Path) : Option (List String) :=
  match fs p with
  | some (.dir es) => some es
  | _ => none

/-- The call `fs.mkdir (p, { recursive: true })` on the reversed path: an existing
directory is left alone, a file in the way or U+0000 in the path makes it reject,
missing directories are created from the top. -/
def mkdirRev (fs : FS) : List String → Option FS
  | [] =>
    match fs [] with
    | some (.dir _) => some fs
    | some (.file _) => none
    | none => some (fs.set [] (.dir []))
  | name :: up =>
    match fs (name :: up).reverse with
    | some (.dir _) => some fs
    | some (.file _) => none
    | none =>
      if holdsNul (name :: up).reverse then none
      else
        match mkdirRev fs up with
        | none => none
        | some fs1 =>
          match fs1 up.reverse with
          | some (.dir es) =>
            some ((fs1.set up.reverse (.dir (es ++ [name]))).set (name :: up).reverse (.dir []))
          | _ => none

/-- The function `ensureDataDir`. -/
def ensureDataDir (dirname : Path) (fs : FS) : Option FS :=
  mkdirRev fs (DATA_DIR dirname).reverse

/-! ## The request handlers -/

/-- Reply of a handler: `res.json (body)`, or `res.status (status).json` of an
object with the single property `error`. -/
inductive Response where
  | json (body : Json)
  | error (status : Nat) (code : String)
  deriving DecidableEq

/-- Handler of `GET /api/user/:id` (GetOrCreate); `now` is the reading of the
clock for `createdAt`. -/
def getOrCreate (dirname : Path) (fs : FS) (id : String) (now : String) : Response × FS :=
  let file := userFilePath dirname id
  if !stat fs file then
    let defaultUser := Json.obj [("id", .str id), ("username", .str ("user_" ++ id)),
      ("coins", .num 0), ("level", .num 1), ("messages", .arr []), ("createdAt", .str now)]
    match writeFile fs file (jsonStringify defaultUser) with
    | some fs1 => (.json defaultUser, fs1)
    | none => (.error 500 "read-failed", fs)
  else
    match (readFile fs file).bind jsonParse with
    | some user => (.json user, fs)
    | none => (.error 500 "read-failed", fs)

/-- Handler of `POST /api/user/:id` (MergeUpdate) with request body `data`; `now`
is the reading of the clock for the `createdAt` of the stub.  The merged record
is kept as `JSON.stringify` writes it, to the file and to the reply. -/
def mergeUpdate (dirname : Path) (fs : FS) (id : String) (data : Body) (now : String) :
    Response × FS :=
  let file := userFilePath dirname id
  let base : Option Json :=
    if stat fs file then (readFile fs file).bind jsonParse
    else some (.obj [("id", .str id), ("createdAt", .str now)])
  match base with
  | none => (.error 500 "write-failed", fs)
  | some user0 =>
    let user := mergeUser user0 data.written id
    match writeFile fs file (jsonStringify user) with
    | some fs1 => (.json user, fs1)
    | none => (.error 500 "write-failed", fs)

/-- Handler of `POST /api/user/:id/message` (AppendMessage) with request body
`body`; `nowCreated` is the reading of the clock for the `createdAt` of the stub
and `nowDate` the one for the `date` of the message. -/
def appendMessage (dirname : Path) (fs : FS) (id : String) (body : Body)
    (nowCreated nowDate : String) : Response × FS :=
  let frm := body.field "from"
  let text := body.field "text"
  if !Body.truthy frm || !Body.truthy text then (.error 400 "missing fields", fs)
  else
    let file := userFilePath dirname id
    let created : Option FS :=
      if !stat fs file then
        writeFile fs file (jsonStringify (.obj [("id", .str id), ("messages", .arr []),
          ("coins", .num 0), ("createdAt", .str nowCreated)]))
      else some fs
    match created with
    | none => (.error 500 "message-failed", fs)
    | some fs1 =>
      match (readFile fs1 file).bind jsonParse with
      | none => (.error 500 "message-failed", fs1)
      | some user =>
        let msg := mkMessage (frm.map Body.written) (text.map Body.written) nowDate
        match pushMessage user msg with
        | none => (.error 500 "message-failed", fs1)
        | some user1 =>
          match writeFile fs1 file (jsonStringify user1) with
          | none => (.error 500 "message-failed", fs1)
          | some fs2 => (.json (.obj [("ok", .bool true), ("message", msg)]), fs2)

/-- Loop of the listing handler over the names of the directory: the parsed
documents of the names ending in `.json`, or `none` when a read or a parse throws. -/
def listLoop (dirname : Path) (fs : FS) : List String → Option (List Json)
  | [] => some []
  | f :: rest =>
    if endsWithJson f then
      match (readFile fs (pathJoin (DATA_DIR dirname) f)).bind jsonParse with
      | none => none
      | some user =>
        match listLoop dirname fs rest with
        | none => none
        | some users => some (user :: users)
    else listLoop dirname fs rest

/-- Handler of `GET /api/admin/users` (ListAll). -/
def listAll (dirname : Path) (fs : FS) : Response × FS :=
  match ensureDataDir dirname fs with
  | none => (.error 500 "list-failed", fs)
  | some fs1 =>
    match readdir fs1 (DATA_DIR dirname) with
    | none => (.error 500 "list-failed", fs1)
    | some files =>
      match listLoop dirname fs1 files with
      | none => (.error 500 "list-failed", fs1)
      | some users => (.json (.arr users), fs1)

/-- Loop of the broadcast handler over the names of the directory, from the entry
of index `i` on, with `frm` and `text` as `JSON.stringify` writes them; `now j` is
the reading of the clock for the entry of index `j`.
The flag is `false` when a read, a parse, the push or a write throws, and the
file system is the one reached at that point. -/
def broadcastLoop (dirname : Path) (frm text : Option Json) (now : Nat → String) :
    List String → Nat → FS → Bool × FS
  | [], _, fs => (true, fs)
  | f :: rest, i, fs =>
    if !endsWithJson f then broadcastLoop dirname frm text now rest (i + 1) fs
    else
      let p := pathJoin (DATA_DIR dirname) f
      match (readFile fs p).bind jsonParse with
      | none => (false, fs)
      | some user =>
        match pushMessage user (mkMessage frm text (now i)) with
        | none => (false, fs)
        | some user1 =>
          match writeFile fs p (jsonStringify user1) with
          | none => (false, fs)
          | some fs1 => broadcastLoop dirname frm text now rest (i + 1) fs1

/-- Handler of `POST /api/admin/broadcast` (Broadcast) with request body `body`. -/
def broadcast (dirname : Path) (fs : FS) (body : Body) (now : Nat → String) : Response × FS :=
  let frm : Option Body :=
    match body.field "from" with
    | none => some (.str "admin")
    | some v => some v
  let text := body.field "text"
  if !Body.truthy text then (.error 400 "missing text", fs)
  else
    match ensureDataDir dirname fs with
    | none => (.error 500 "broadcast-failed", fs)
    | some fs1 =>
      match readdir fs1 (DATA_DIR dirname) with
      | none => (.error 500 "broadcast-failed", fs1)
      | some files =>
        match broadcastLoop dirname (frm.map Body.written) (text.map Body.written) now files 0
            fs1 with
        | (true, fs2) => (.json (.obj [("ok", .bool true), ("sentTo", .num files.length)]), fs2)
        | (false, fs2) => (.error 500 "broadcast-failed", fs2)

/-- One call of the API. -/
inductive Op where
  | getOrCreate (id : String) (now : String)
  | mergeUpdate (id : String) (data : Body) (now : String)
  | appendMessage (id : String) (body : Body) (nowCreated nowDate : String)
  | listAll
  | broadcast (body : Body) (now : Nat → String)

/-- Effect of one call: the reply and the file system after it. -/
def step (dirname : Path) (fs : FS) : Op → Response × FS
  | .getOrCreate id now => getOrCreate dirname fs id now
  | .mergeUpdate id data now => mergeUpdate dirname fs id data now
  | .appendMessage id body nowCreated nowDate => appendMessage dirname fs id body nowCreated nowDate
  | .listAll => listAll dirname fs
  | .broadcast body now => broadcast dirname fs body now

/-- File system after a sequence of calls. -/
def run (dirname : Path) (fs : FS) (ops : List Op) : FS :=
  ops.foldl (fun s op => (step dirname s op).2) fs

/-- Identifier of the user a call addresses, for the three calls that take one. -/
def Op.userId : Op → Option String
  | .getOrCreate id _ => some id
  | .mergeUpdate id _ _ => some id
  | .appendMessage id _ _ _ => some id
  | .listAll => none
  | .broadcast _ _ => none

/-- Whether the reply of a call is the user record itself (GetOrCreate and
MergeUpdate), as opposed to the envelope of AppendMessage. -/
def Op.repliesRecord : Op → Bool
  | .getOrCreate _ _ => true
  | .mergeUpdate _ _ _ => true
  | _ => false

/-- Document persisted for the identifier `id`, if its file exists and parses. -/
def storedDoc (dirname : Path) (fs : FS) (id : String) : Option Json :=
  (readFile fs (userFilePath dirname id)).bind jsonParse

/-- Property `key` of the document persisted for `id`. -/
def storedField (dirname : Path) (fs : FS) (id : String) (key : String) : Option Json :=
  (storedDoc dirname fs id).bind (fun v => field v key)

/-- The sequence held by the `messages` property of a document, empty when the
property is absent or is not a sequence. -/
def messagesOf (v : Json) : List Json :=
  match field v "messages" with
  | some (.arr xs) => xs
  | _ => []

/-- Reading of the clock as `new Date().toISOString()` returns it: a string that
is never empty. -/
structure IsoTime where
  text : String
  nonempty : text ≠ ""

/-- Segment that normalisation keeps: not empty, not `.`, not `..`. -/
def plainSeg (s : String) : Prop := s ≠ "" ∧ s ≠ "." ∧ s ≠ ".."

/-- File system given by a finite table of nodes. -/
def FS.ofList (nodes : List (Path × Node)) : FS :=
  fun p => nodes.lookup p

/-- Sample file system: the application lives in `/app` and its data directory
`/app/data/users` is empty. -/
def fsEmpty : FS :=
  FS.ofList [([], .dir ["app"]), (["app"], .dir ["data"]), (["app", "data"], .dir ["users"]),
    (["app", "data", "users"], .dir [])]

/-- One AppendMessage request: its body and the two readings of the clock. -/
structure MessageRequest where
  body : Body
  nowCreated : String
  nowDate : String

/-- The message an AppendMessage request builds. -/
def messageOf (r : MessageRequest) : Json :=
  mkMessage ((r.body.field "from").map Body.written) ((r.body.field "text").map Body.written)
    r.nowDate

/-- Successive AppendMessage calls on one identifier: the replies in order and the
file system after the last call. -/
def appendAll (dirname : Path) (fs : FS) (id : String) : List MessageRequest → List Response × FS
  | [] => ([], fs)
  | r :: rest =>
    ((appendMessage dirname fs id r.body r.nowCreated r.nowDate).1
        :: (appendAll dirname (appendMessage dirname fs id r.body r.nowCreated r.nowDate).2 id
              rest).1,
      (appendAll dirname (appendMessage dirname fs id r.body r.nowCreated r.nowDate).2 id rest).2)

/-- The previous messages of a record whose `messages` is absent, `null` or a
sequence: empty when absent or `null`; `none` for any other `messages`. -/
def prevMessages (kvs : List (String × Json)) : Option (List Json) :=
  match getField kvs "messages" with
  | none => some []
  | some .null => some []
  | some (.arr xs) => some xs
  | _ => none

/-- The stub record AppendMessage creates for an absent identifier. -/
def messageStub (id nowCreated : String) : List (String × Json) :=
  [("id", .str id), ("messages", .arr []), ("coins", .num 0), ("createdAt", .str nowCreated)]

/-- Calls that take no `messages` key from a payload: every call except a
MergeUpdate whose payload has a `messages` property. -/
def Op.keepsMessages : Op → Bool
  | .mergeUpdate _ data _ => !hasField (ownEntries data.written) "messages"
  | _ => true

/-- The file at `p` holds a document whose messages extend those of `v`. -/
def extendsAt (p : Path) (v : Json) (fs : FS) : Prop :=
  ∃ v1 ys, fs p = some (.file (.json v1)) ∧ messagesOf v1 = messagesOf v ++ ys

/-- Sample file system: the empty data directory after one AppendMessage on `u`. -/
def fsOneMessage : FS :=
  (appendMessage ["app"] fsEmpty "u" (.obj [("from", .str "admin"), ("text", .str "hi")])
    "t0" "t1").2

/-- Sample file system: the empty data directory after a MergeUpdate on `u` whose
payload sets `messages` to a string. -/
def fsTextMessages : FS :=
  (mergeUpdate ["app"] fsEmpty "u" (.obj [("messages", .str "oops")]) "t0").2

/-- Sample file system: the data directory holds the single entry `notes.txt`. -/
def fsNotes : FS :=
  FS.ofList [([], .dir ["app"]), (["app"], .dir ["data"]), (["app", "data"], .dir ["users"]),
    (["app", "data", "users"], .dir ["notes.txt"]),
    (["app", "data", "users", "notes.txt"], .file .garbage)]

/-- The identifier of the call, if it takes one, contains no slash. -/
def Op.plainId (op : Op) : Prop :=
  ∀ id, op.userId = some id → '/' ∉ id.toList

/-- The data directory exists and is empty. -/
def emptyStore (dirname : Path) (fs : FS) : Prop :=
  fs (DATA_DIR dirname) = some (.dir []) ∧ ∀ name, fs (DATA_DIR dirname ++ [name]) = none

/-- The data directory lists each of its entries once, and every entry is a file
`k.json` holding a record whose `id` is `k`. -/
def keyed (dirname : Path) (fs : FS) : Prop :=
  ∃ names, fs (DATA_DIR dirname) = some (.dir names) ∧ names.Nodup
    ∧ (∀ name, name ∈ names ↔ fs (DATA_DIR dirname ++ [name]) ≠ none)
    ∧ ∀ name ∈ names, ∃ k kvs, name = k ++ ".json" ∧ '/' ∉ k.toList
        ∧ fs (DATA_DIR dirname ++ [name]) = some (.file (.json (.obj kvs)))
        ∧ getField kvs "id" = some (.str k)

/-- Sample requests: three messages for one user. -/
def sampleRequests : List MessageRequest :=
  [⟨.obj [("from", .str "admin"), ("text", .str "one")], "c1", "d1"⟩,
    ⟨.obj [("from", .str "p1"), ("text", .str "two")], "c2", "d2"⟩,
    ⟨.obj [("from", .str "admin"), ("text", .str "three")], "c3", "d3"⟩]

/-- Sample file system: the data directory after a GetOrCreate on `a` and an
AppendMessage on `b`. -/
def fsTwoUsers : FS :=
  run ["app"] fsEmpty [.getOrCreate "a" "t0",
    .appendMessage "b" (.obj [("from", .str "p1"), ("text", .str "hi")]) "t1" "t2"]

/-- Sample calls: one of each kind, with identifiers without a slash. -/
def sampleOps : List Op :=
  [.getOrCreate "a" "t0", .mergeUpdate "a" (.obj [("id", .str "zz"), ("coins", .num 3)]) "t1",
    .appendMessage "b" (.obj [("from", .str "p1"), ("text", .str "hi")]) "t2" "t3", .listAll,
    .broadcast (.obj [("text", .str "hello")]) (fun _ => "t4")]

end UserStore

/-! ## Objects: reading after writing -/

namespace UserStore

theorem getField_cons {α : Type} (k : String) (v : α) (rest : List (String × α)) (key : String) :
    getField ((k, v) :: rest) key = (getField rest key).or (if k = key then some v else none) :=
  rfl

theorem getField_append (a b : List (String × Json)) (key : String) :
    getField (a ++ b) key = (getField b key).or (getField a key) := by
  induction a with
  | nil => simp [getField]
  | cons kv a ih =>
    obtain ⟨k, v⟩ := kv
    rw [List.cons_append, getField_cons, getField_cons, ih, Option.or_assoc]

theorem getField_isSome {α : Type} (kvs : List (String × α)) (key : String) :
    (getField kvs key).isSome = hasField kvs key := by
  induction kvs with
  | nil => rfl
  | cons kv kvs ih =>
    obtain ⟨k, v⟩ := kv
    simp only [hasField, List.any_cons] at ih ⊢
    rw [← ih]
    cases h : getField kvs key with
    | some w => simp [getField, h]
    | none => by_cases hk : k = key <;> simp [getField, h, hk]

theorem getField_eq_none_of_not_hasField {α : Type} (kvs : List (String × α)) (key : String)
    (h : hasField kvs key = false) : getField kvs key = none := by
  have := getField_isSome kvs key
  rw [h] at this
  cases hg : getField kvs key with
  | none => rfl
  | some w => rw [hg] at this; simp at this

theorem getField_map_set (kvs : List (String × Json)) (key : String) (v : Json) (k : String)
    (h : hasField kvs key = true) :
    getField (kvs.map (fun kv => if kv.1 = key then (kv.1, v) else kv)) k
      = if k = key then some v else getField kvs k := by
  induction kvs with
  | nil => simp [hasField] at h
  | cons kv kvs ih =>
    obtain ⟨k0, v0⟩ := kv
    cases hrest : hasField kvs key with
    | true =>
      have ih1 := ih hrest
      by_cases h0 : k0 = key
      · simp only [List.map_cons, h0, if_true, getField_cons, ih1]
        by_cases hk : k = key
        · simp [hk]
        · have h2 : ¬ key = k := fun e => hk e.symm
          simp [hk, h2]
      · simp only [List.map_cons, h0, if_false, getField_cons, ih1]
        by_cases hk : k = key
        · have h2 : ¬ k0 = k := fun e => h0 (e.trans hk)
          simp [hk, h2, h0]
        · simp [hk]
    | false =>
      have hnone : getField kvs key = none := getField_eq_none_of_not_hasField kvs key hrest
      have hall : ∀ kv ∈ kvs, ¬ kv.1 = key := by
        intro kv hkv e
        have : hasField kvs key = true := by
          simp only [hasField, List.any_eq_true]
          exact ⟨kv, hkv, by simp [e]⟩
        rw [hrest] at this
        exact Bool.noConfusion this
      have hmap : kvs.map (fun kv => if kv.1 = key then (kv.1, v) else kv) = kvs := by
        calc kvs.map (fun kv => if kv.1 = key then (kv.1, v) else kv)
            = kvs.map id := List.map_congr_left (fun kv hkv => by simp [hall kv hkv])
          _ = kvs := List.map_id kvs
      have h0 : k0 = key := by
        simp only [hasField, List.any_cons, Bool.or_eq_true] at h
        rcases h with h | h
        · simpa using h
        · rw [hasField] at hrest; rw [hrest] at h; exact Bool.noConfusion h
      simp only [List.map_cons, h0, if_true, getField_cons, hmap]
      by_cases hk : k = key
      · simp [hk, hnone]
      · have : ¬ key = k := fun e => hk e.symm
        simp [hk, this]

theorem getField_setField (kvs : List (String × Json)) (key : String) (v : Json) (k : String) :
    getField (setField kvs key v) k = if k = key then some v else getField kvs k := by
  unfold setField
  cases h : hasField kvs key with
  | true =>
    simp only [if_true]
    exact getField_map_set kvs key v k h
  | false =>
    simp only [Bool.false_eq_true, if_false]
    rw [getField_append]
    by_cases hk : k = key
    · simp [getField, hk]
    · have : ¬ key = k := fun e => hk e.symm
      simp [getField, hk, this]

theorem hasField_setField (kvs : List (String × Json)) (key : String) (v : Json) (k : String) :
    hasField (setField kvs key v) k = (decide (k = key) || hasField kvs k) := by
  rw [← getField_isSome, ← getField_isSome, getField_setField]
  by_cases hk : k = key <;> simp [hk]

theorem getField_foldl_set (es acc : List (String × Json)) (k : String) :
    getField (es.foldl (fun a kv => setField a kv.1 kv.2) acc) k
      = (getField es k).or (getField acc k) := by
  induction es generalizing acc with
  | nil => simp [getField]
  | cons kv es ih =>
    obtain ⟨k0, v0⟩ := kv
    simp only [List.foldl_cons, ih, getField_cons, getField_setField, Option.or_assoc]
    congr 1
    by_cases hk : k = k0
    · simp [hk]
    · have : ¬ k0 = k := fun e => hk e.symm
      simp [hk, this]

theorem getField_objectLiteral (es : List (String × Json)) (k : String) :
    getField (objectLiteral es) k = getField es k := by
  unfold objectLiteral
  rw [getField_foldl_set]
  simp [getField]

/-- Property of the merged record: `id` is forced, any other key comes from the
payload when the payload has it and from the base otherwise. -/
theorem getField_mergeUser (base pkvs : List (String × Json)) (id k : String) :
    getField (objectLiteral (base ++ pkvs ++ [("id", .str id)])) k
      = if k = "id" then some (.str id)
        else (getField pkvs k).or (getField base k) := by
  rw [getField_objectLiteral, getField_append, getField_append]
  by_cases hk : k = "id"
  · simp [getField, hk]
  · have : ¬ "id" = k := fun e => hk e.symm
    simp [getField, hk, this]

theorem getField_writtenFields (pkvs : List (String × Body)) (k : String) :
    getField (Body.writtenFields pkvs) k = (getField pkvs k).map Body.written := by
  induction pkvs with
  | nil => rfl
  | cons kv rest ih =>
    obtain ⟨k0, v0⟩ := kv
    simp only [Body.writtenFields, getField_cons, ih]
    cases getField rest k with
    | some w => simp
    | none => by_cases hk : k0 = k <;> simp [hk]

theorem hasField_writtenFields (pkvs : List (String × Body)) (k : String) :
    hasField (Body.writtenFields pkvs) k = hasField pkvs k := by
  rw [← getField_isSome, ← getField_isSome, getField_writtenFields]
  cases getField pkvs k <;> rfl

end UserStore

/-! ## Paths -/

namespace UserStore

theorem normStep_plain (stack : List String) (s : String) (h : plainSeg s) :
    normStep stack s = s :: stack := by
  obtain ⟨h1, h2, h3⟩ := h
  simp [normStep, h1, h2, h3]

theorem normStep_keeps_plain (stack : List String) (s : String)
    (h : ∀ x ∈ stack, plainSeg x) : ∀ x ∈ normStep stack s, plainSeg x := by
  unfold normStep
  by_cases h1 : s = "" ∨ s = "."
  · simpa [h1] using h
  · by_cases h2 : s = ".."
    · simp only [h1, h2, if_false, if_true]
      intro x hx
      exact h x (List.mem_of_mem_tail hx)
    · simp only [h1, h2, if_false]
      intro x hx
      rcases List.mem_cons.mp hx with e | hx
      · subst e
        exact ⟨fun e => h1 (Or.inl e), fun e => h1 (Or.inr e), h2⟩
      · exact h x hx

theorem foldl_normStep_keeps_plain (segs stack : List String)
    (h : ∀ x ∈ stack, plainSeg x) : ∀ x ∈ segs.foldl normStep stack, plainSeg x := by
  induction segs generalizing stack with
  | nil => simpa using h
  | cons s segs ih => exact ih _ (normStep_keeps_plain stack s h)

theorem foldl_normStep_plain (segs stack : List String) (h : ∀ x ∈ segs, plainSeg x) :
    segs.foldl normStep stack = segs.reverse ++ stack := by
  induction segs generalizing stack with
  | nil => simp
  | cons s segs ih =>
    rw [List.foldl_cons, normStep_plain stack s (h s (List.mem_cons_self _ _)),
      ih _ (fun x hx => h x (List.mem_cons_of_mem _ hx))]
    simp

theorem normalize_plain (segs : List String) : ∀ x ∈ normalize segs, plainSeg x := by
  intro x hx
  unfold normalize at hx
  exact foldl_normStep_keeps_plain segs [] (by simp) x (List.mem_reverse.mp hx)

theorem DATA_DIR_plain (dirname : Path) : ∀ x ∈ DATA_DIR dirname, plainSeg x :=
  normalize_plain _

/-- Joining a normalised base with segments: the base is kept as the start of the
stack. -/
theorem normalize_append (base rel : List String) (h : ∀ x ∈ base, plainSeg x) :
    normalize (base ++ rel) = (rel.foldl normStep base.reverse).reverse := by
  unfold normalize
  rw [List.foldl_append, foldl_normStep_plain base [] h]
  simp

theorem normalize_append_plain (base : List String) (name : String)
    (h : ∀ x ∈ base, plainSeg x) (hn : plainSeg name) :
    normalize (base ++ [name]) = base ++ [name] := by
  rw [normalize_append base [name] h]
  simp [normStep_plain _ name hn]

theorem normalize_concat_plain (segs : List String) (name : String) (hn : plainSeg name) :
    normalize (segs ++ [name]) = normalize segs ++ [name] := by
  unfold normalize
  rw [List.foldl_append]
  simp [normStep_plain _ name hn]

theorem splitSegs_noSlash (cs : List Char) (h : '/' ∉ cs) : splitSegs cs = [cs] := by
  induction cs with
  | nil => rfl
  | cons c cs ih =>
    have hc : ¬ c = '/' := fun e => h (e ▸ List.mem_cons_self _ _)
    have hcs : '/' ∉ cs := fun m => h (List.mem_cons_of_mem _ m)
    simp [splitSegs, hc, ih hcs]

theorem splitSegs_append (a b : List Char) (h : '/' ∉ b) :
    ∃ pre last, splitSegs (a ++ b) = pre ++ [last ++ b] := by
  induction a with
  | nil => exact ⟨[], [], by simp [splitSegs_noSlash b h]⟩
  | cons c cs ih =>
    obtain ⟨pre, last, e⟩ := ih
    by_cases hc : c = '/'
    · exact ⟨[] :: pre, last, by simp [splitSegs, hc, e]⟩
    · cases pre with
      | nil => exact ⟨[], c :: last, by simp [splitSegs, hc, e]⟩
      | cons s ss => exact ⟨(c :: s) :: ss, last, by simp [splitSegs, hc, e]⟩

theorem plainSeg_of_long (cs : List Char) (h : 5 ≤ cs.length) : plainSeg (String.mk cs) := by
  have h1 : 5 ≤ (String.mk cs).length := h
  refine ⟨?_, ?_, ?_⟩ <;> intro e <;>
    · rw [e] at h1
      exact absurd h1 (by decide)

theorem plainSeg_json (id : String) : plainSeg (id ++ ".json") := by
  have : id ++ ".json" = String.mk (id.data ++ ".json".data) := rfl
  rw [this]
  apply plainSeg_of_long
  simp

theorem splitPath_noSlash (s : String) (h : '/' ∉ s.toList) : splitPath s = [s] := by
  unfold splitPath
  rw [splitSegs_noSlash _ h]
  rfl

/-- An identifier without a slash names the file `id.json` of the data directory. -/
theorem userFilePath_noSlash (dirname : Path) (id : String) (h : '/' ∉ id.toList) :
    userFilePath dirname id = DATA_DIR dirname ++ [id ++ ".json"] := by
  unfold userFilePath pathJoin
  have hs : '/' ∉ (id ++ ".json").toList := by
    have : (id ++ ".json").toList = id.toList ++ ".json".toList := rfl
    rw [this, List.mem_append]
    rintro (m | m)
    · exact h m
    · revert m; decide
  rw [splitPath_noSlash _ hs]
  exact normalize_append_plain _ _ (DATA_DIR_plain dirname) (plainSeg_json id)

/-- The path of a user file is never the root: it ends with a file name. -/
theorem userFilePath_concat (dirname : Path) (id : String) :
    ∃ pre name, userFilePath dirname id = pre ++ [name] := by
  unfold userFilePath pathJoin
  have hj : '/' ∉ ".json".toList := by decide
  obtain ⟨pre, last, e⟩ := splitSegs_append id.toList ".json".toList hj
  have hsp : splitPath (id ++ ".json") = pre.map String.mk ++ [String.mk (last ++ ".json".toList)] := by
    unfold splitPath
    have : (id ++ ".json").toList = id.toList ++ ".json".toList := rfl
    rw [this, e]
    simp
  have hp : plainSeg (String.mk (last ++ ".json".toList)) :=
    plainSeg_of_long _ (by simp)
  rw [hsp, ← List.append_assoc, normalize_concat_plain _ _ hp]
  exact ⟨_, _, rfl⟩

/-- A directory entry without a slash whose name ends in `.json` is joined to the
data directory as it is. -/
theorem pathJoin_entry (dirname : Path) (f : String) (h : '/' ∉ f.toList)
    (hj : endsWithJson f = true) : pathJoin (DATA_DIR dirname) f = DATA_DIR dirname ++ [f] := by
  unfold pathJoin
  rw [splitPath_noSlash _ h]
  apply normalize_append_plain _ _ (DATA_DIR_plain dirname)
  have hlen : 5 ≤ f.toList.length := by
    unfold endsWithJson at hj
    have := List.IsSuffix.length_le (List.isSuffixOf_iff_suffix.mp hj)
    simpa using this
  have : f = String.mk f.toList := rfl
  rw [this]
  exact plainSeg_of_long _ hlen

end UserStore

/-! ## The file system: reading after writing -/

namespace UserStore

theorem FS.set_same (fs : FS) (p : Path) (n : Node) : (fs.set p n) p = some n := by
  simp [FS.set]

theorem FS.set_other (fs : FS) (p q : Path) (n : Node) (h : q ≠ p) : (fs.set p n) q = fs q := by
  simp [FS.set, h]

theorem dropLast_ne_self (p : Path) (name : String) (h : p.getLast? = some name) :
    p.dropLast ≠ p := by
  intro e
  have h1 := List.dropLast_append_getLast? name (by simp [h] : name ∈ p.getLast?)
  have h2 := congrArg List.length h1
  rw [e] at h2
  simp at h2

theorem writeFile_existing (fs : FS) (p : Path) (t t0 : Text)
    (h : fs p = some (.file t0)) : writeFile fs p t = some (fs.set p (.file t)) := by
  simp [writeFile, h]

theorem writeFile_new (fs : FS) (p : Path) (t : Text) (name : String) (es : List String)
    (h : fs p = none) (hn : holdsNul p = false) (hl : p.getLast? = some name)
    (hd : fs p.dropLast = some (.dir es)) :
    writeFile fs p t = some ((fs.set p.dropLast (.dir (es ++ [name]))).set p (.file t)) := by
  simp [writeFile, h, hn, hl, hd]

theorem writeFile_nul (fs : FS) (p : Path) (t : Text) (h : fs p = none)
    (hn : holdsNul p = true) : writeFile fs p t = none := by
  simp [writeFile, h, hn]

/-- A successful write: the file holds the text, every other file is as before,
and every other node is as before except the directory that received a new file. -/
theorem writeFile_spec (fs fs1 : FS) (p : Path) (t : Text) (h : writeFile fs p t = some fs1) :
    fs1 p = some (.file t)
      ∧ (∀ q, q ≠ p → readFile fs1 q = readFile fs q)
      ∧ (∀ q, q ≠ p → q ≠ p.dropLast → fs1 q = fs q)
      ∧ (∀ q, q ≠ p → stat fs1 q = stat fs q) := by
  unfold writeFile at h
  cases hp : fs p with
  | some n =>
    cases n with
    | dir es => simp [hp] at h
    | file t0 =>
      simp only [hp, Option.some.injEq] at h
      subst h
      refine ⟨FS.set_same _ _ _, ?_, ?_, ?_⟩
      · intro q hq; simp [readFile, FS.set_other _ _ _ _ hq]
      · intro q hq _; exact FS.set_other _ _ _ _ hq
      · intro q hq; simp [stat, FS.set_other _ _ _ _ hq]
  | none =>
    simp only [hp] at h
    cases hl : p.getLast? with
    | none => simp [hl] at h
    | some name =>
      cases hd : fs p.dropLast with
      | none => simp [hl, hd] at h
      | some n =>
        cases n with
        | file t0 => simp [hl, hd] at h
        | dir es =>
          simp only [hl, hd] at h
          split at h
          · simp at h
          simp only [Option.some.injEq] at h
          subst h
          refine ⟨FS.set_same _ _ _, ?_, ?_, ?_⟩
          · intro q hq
            by_cases hq2 : q = p.dropLast
            · subst hq2
              simp [readFile, FS.set_other _ _ _ _ hq, FS.set_same, hd]
            · simp [readFile, FS.set_other _ _ _ _ hq, FS.set_other _ _ _ _ hq2]
          · intro q hq hq2
            rw [FS.set_other _ _ _ _ hq, FS.set_other _ _ _ _ hq2]
          · intro q hq
            by_cases hq2 : q = p.dropLast
            · subst hq2
              simp [stat, FS.set_other _ _ _ _ hq, FS.set_same, hd]
            · simp [stat, FS.set_other _ _ _ _ hq, FS.set_other _ _ _ _ hq2]

theorem readFile_of_file (fs : FS) (p : Path) (t : Text) (h : fs p = some (.file t)) :
    readFile fs p = some t := by
  simp [readFile, h]

theorem stat_of_some (fs : FS) (p : Path) (n : Node) (h : fs p = some n) : stat fs p = true := by
  simp [stat, h]

theorem stat_false_iff (fs : FS) (p : Path) : stat fs p = false ↔ fs p = none := by
  unfold stat
  cases fs p <;> simp

/-- A write to an absent user file succeeds as soon as its directory exists. -/
theorem writeFile_userFile (dirname : Path) (fs : FS) (id : String) (t : Text) (es : List String)
    (habsent : stat fs (userFilePath dirname id) = false)
    (hnul : holdsNul (userFilePath dirname id) = false)
    (hdir : fs (userFilePath dirname id).dropLast = some (.dir es)) :
    ∃ fs1, writeFile fs (userFilePath dirname id) t = some fs1 := by
  obtain ⟨pre, name, e⟩ := userFilePath_concat dirname id
  have hl : (userFilePath dirname id).getLast? = some name := by rw [e]; simp
  exact ⟨_, writeFile_new fs _ t name es ((stat_false_iff _ _).mp habsent) hnul hl hdir⟩

end UserStore

/-! ## The claims -/

namespace UserStore

/-- C7, as stated, fails: on the empty data directory GetOrCreate on the
identifier `a/b`, for which no document is persisted, replies 500 `read-failed`
and persists nothing, the directory of its file being missing; so it does on an
identifier that holds U+0000. -/
theorem getOrCreate_defaults_fails :
    stat fsEmpty (userFilePath ["app"] "a/b") = false
      ∧ (getOrCreate ["app"] fsEmpty "a/b" "t0").1 = .error 500 "read-failed"
      ∧ stat (getOrCreate ["app"] fsEmpty "a/b" "t0").2 (userFilePath ["app"] "a/b") = false
      ∧ stat fsEmpty (userFilePath ["app"] "a\x00") = false
      ∧ (getOrCreate ["app"] fsEmpty "a\x00" "t0").1 = .error 500 "read-failed"
      ∧ stat (getOrCreate ["app"] fsEmpty "a\x00" "t0").2 (userFilePath ["app"] "a\x00")
        = false := by
  decide

/-- C7, amended. GetOrCreate on an identifier with no persisted document, whose
file path holds no U+0000 and lies in an existing directory, replies with and
persists a record with `id` the given identifier, `username` the identifier after
`user_`, `coins` 0, `level` 1, `messages` the empty sequence and a non-empty
`createdAt` (the reading of the clock), and leaves every other file as it was. -/
theorem getOrCreate_defaults (dirname : Path) (fs : FS) (id : String) (now : IsoTime)
    (es : List String)
    (habsent : stat fs (userFilePath dirname id) = false)
    (hnul : holdsNul (userFilePath dirname id) = false)
    (hdir : fs (userFilePath dirname id).dropLast = some (.dir es)) :
    ∃ r fs1, getOrCreate dirname fs id now.text = (.json (.obj r), fs1)
      ∧ readFile fs1 (userFilePath dirname id) = some (jsonStringify (.obj r))
      ∧ getField r "id" = some (.str id)
      ∧ getField r "username" = some (.str ("user_" ++ id))
      ∧ getField r "coins" = some (.num 0)
      ∧ getField r "level" = some (.num 1)
      ∧ getField r "messages" = some (.arr [])
      ∧ (∃ c, getField r "createdAt" = some (.str c) ∧ c ≠ "")
      ∧ ∀ q, q ≠ userFilePath dirname id → readFile fs1 q = readFile fs q := by
  obtain ⟨fs1, hw⟩ := writeFile_userFile dirname fs id
    (jsonStringify (.obj [("id", .str id), ("username", .str ("user_" ++ id)),
      ("coins", .num 0), ("level", .num 1), ("messages", .arr []),
      ("createdAt", .str now.text)]))
    es habsent hnul hdir
  obtain ⟨h1, h2, -, -⟩ := writeFile_spec _ _ _ _ hw
  refine ⟨_, fs1, ?_, readFile_of_file _ _ _ h1, ?_, ?_, ?_, ?_, ?_,
    ⟨now.text, ?_, now.nonempty⟩, h2⟩
  · simp [getOrCreate, habsent, hw]
  all_goals simp [getField_cons, getField]

/-- C5. AppendMessage with a falsy or missing `from` or `text` replies 400
`missing fields` and the file system after the call is the one before it. -/
theorem appendMessage_validates (dirname : Path) (fs : FS) (id : String) (body : Body)
    (nowCreated nowDate : String)
    (h : Body.truthy (body.field "from") = false ∨ Body.truthy (body.field "text") = false) :
    appendMessage dirname fs id body nowCreated nowDate = (.error 400 "missing fields", fs) := by
  unfold appendMessage
  rcases h with h | h <;> simp [h]

/-- C10. AppendMessage with truthy `from` and `text` on a stored record whose
`messages` is truthy and not a sequence replies 500 `message-failed` and the file
system after the call is the one before it. -/
theorem appendMessage_nonSequence (dirname : Path) (fs : FS) (id : String) (body : Body)
    (nowCreated nowDate : String) (kvs : List (String × Json)) (v : Json)
    (hfrom : Body.truthy (body.field "from") = true)
    (htext : Body.truthy (body.field "text") = true)
    (hrec : fs (userFilePath dirname id) = some (.file (.json (.obj kvs))))
    (hm : getField kvs "messages" = some v) (htruthy : truthy (some v) = true)
    (hseq : ∀ xs, v ≠ .arr xs) :
    appendMessage dirname fs id body nowCreated nowDate = (.error 500 "message-failed", fs) := by
  have hpush : ∀ msg, pushMessage (.obj kvs) msg = none := by
    intro msg
    unfold pushMessage
    simp only [hm, htruthy, if_true]
    cases v with
    | arr xs => exact absurd rfl (hseq xs)
    | _ => rfl
  simp [appendMessage, hfrom, htext, stat_of_some _ _ _ hrec, readFile_of_file _ _ _ hrec,
    jsonParse, hpush]

end UserStore

namespace UserStore

/-- Reply and file system of MergeUpdate on a stored document. -/
theorem mergeUpdate_stored (dirname : Path) (fs : FS) (id : String) (data : Body) (now : String)
    (user0 : Json) (h : fs (userFilePath dirname id) = some (.file (.json user0))) :
    mergeUpdate dirname fs id data now
      = (.json (mergeUser user0 data.written id),
          fs.set (userFilePath dirname id) (.file (.json (mergeUser user0 data.written id)))) := by
  simp [mergeUpdate, stat_of_some _ _ _ h, readFile_of_file _ _ _ h, jsonParse,
    writeFile_existing _ _ _ _ h, jsonStringify]

/-- C1, as stated, fails: on the empty data directory MergeUpdate on the
identifier `a/b`, or on one that holds U+0000, replies 500 `write-failed` and
persists nothing; and a payload number beyond the range of a double comes back
and is persisted as `null`, not as the payload has it. -/
theorem mergeUpdate_shallow_fails :
    (mergeUpdate ["app"] fsEmpty "a/b" (.obj [("coins", .num 5)]) "t0").1
        = .error 500 "write-failed"
      ∧ stat (mergeUpdate ["app"] fsEmpty "a/b" (.obj [("coins", .num 5)]) "t0").2
          (userFilePath ["app"] "a/b") = false
      ∧ (mergeUpdate ["app"] fsEmpty "a\x00" (.obj [("coins", .num 5)]) "t0").1
        = .error 500 "write-failed"
      ∧ (mergeUpdate ["app"] fsEmpty "u" (.obj [("coins", .inf false)]) "t0").1
        = .json (.obj [("id", .str "u"), ("createdAt", .str "t0"), ("coins", .null)])
      ∧ storedField ["app"]
          (mergeUpdate ["app"] fsEmpty "u" (.obj [("coins", .inf false)]) "t0").2 "u" "coins"
        = some .null := by
  decide

/-- C1, amended. MergeUpdate with a mapping as payload, on an identifier whose
file path holds no U+0000 and whose file holds a record or is absent from an
existing directory, replies with and persists the record `r` whose `id` is the
path identifier and whose every other key `k` is read from the payload, as
`JSON.stringify` writes its value, when the payload has `k`, and from the base
otherwise, the base being the stored record or the stub made of `id` and
`createdAt`; every key of `r` is `id` or a key of the base or of the payload. -/
theorem mergeUpdate_shallow (dirname : Path) (fs : FS) (id : String)
    (pkvs : List (String × Body)) (now : String) (base : List (String × Json))
    (es : List String)
    (hnul : holdsNul (userFilePath dirname id) = false)
    (hbase : fs (userFilePath dirname id) = some (.file (.json (.obj base)))
      ∨ (stat fs (userFilePath dirname id) = false
          ∧ fs (userFilePath dirname id).dropLast = some (.dir es)
          ∧ base = [("id", .str id), ("createdAt", .str now)])) :
    ∃ r fs1, mergeUpdate dirname fs id (.obj pkvs) now = (.json (.obj r), fs1)
      ∧ readFile fs1 (userFilePath dirname id) = some (jsonStringify (.obj r))
      ∧ getField r "id" = some (.str id)
      ∧ (∀ k, k ≠ "id" →
          getField r k = ((getField pkvs k).map Body.written).or (getField base k))
      ∧ (∀ k, hasField r k = true → k = "id" ∨ hasField base k = true ∨ hasField pkvs k = true) := by
  have hfields : ∀ k,
      getField (objectLiteral (base ++ Body.writtenFields pkvs ++ [("id", .str id)])) k
      = if k = "id" then some (.str id)
        else ((getField pkvs k).map Body.written).or (getField base k) := by
    intro k
    rw [getField_mergeUser, getField_writtenFields]
  have hrest :
      getField (objectLiteral (base ++ Body.writtenFields pkvs ++ [("id", .str id)])) "id"
        = some (.str id)
      ∧ (∀ k, k ≠ "id" →
          getField (objectLiteral (base ++ Body.writtenFields pkvs ++ [("id", .str id)])) k
          = ((getField pkvs k).map Body.written).or (getField base k))
      ∧ (∀ k, hasField (objectLiteral (base ++ Body.writtenFields pkvs ++ [("id", .str id)])) k
          = true → k = "id" ∨ hasField base k = true ∨ hasField pkvs k = true) := by
    refine ⟨by rw [hfields]; simp, fun k hk => by rw [hfields]; simp [hk], ?_⟩
    intro k hk
    by_cases hid : k = "id"
    · exact Or.inl hid
    · right
      rw [← getField_isSome, hfields] at hk
      simp only [hid, if_false] at hk
      rw [← getField_isSome, ← getField_isSome]
      cases hp : getField pkvs k with
      | some w => simp
      | none => rw [hp] at hk; simpa using hk
  rcases hbase with hstored | ⟨habsent, hdir, hstub⟩
  · refine ⟨objectLiteral (base ++ Body.writtenFields pkvs ++ [("id", .str id)]),
      fs.set (userFilePath dirname id)
        (.file (.json (mergeUser (.obj base) (Body.written (.obj pkvs)) id))),
      ?_, ?_, hrest⟩
    · rw [mergeUpdate_stored dirname fs id (.obj pkvs) now (.obj base) hstored]
      rfl
    · exact readFile_of_file _ _ _ (FS.set_same _ _ _)
  · obtain ⟨fs1, hw⟩ := writeFile_userFile dirname fs id
      (jsonStringify (.obj (objectLiteral
        (base ++ Body.writtenFields pkvs ++ [("id", .str id)])))) es habsent hnul hdir
    obtain ⟨h1, -, -, -⟩ := writeFile_spec _ _ _ _ hw
    refine ⟨objectLiteral (base ++ Body.writtenFields pkvs ++ [("id", .str id)]), fs1, ?_,
      readFile_of_file _ _ _ h1, hrest⟩
    subst hstub
    simp only [mergeUpdate, habsent, Bool.false_eq_true, if_false, mergeUser, ownEntries,
      Body.written]
    rw [hw]

end UserStore

namespace UserStore

theorem stored_of_read (fs : FS) (p : Path) (v : Json)
    (h : (readFile fs p).bind jsonParse = some v) : fs p = some (.file (.json v)) := by
  unfold readFile at h
  cases hp : fs p with
  | none => simp [hp] at h
  | some n =>
    cases n with
    | dir es => simp [hp] at h
    | file t =>
      cases t with
      | garbage => simp [hp, jsonParse] at h
      | json w =>
        simp only [hp, Option.some_bind, jsonParse, Option.some.injEq] at h
        rw [h]

theorem storedDoc_of_file (dirname : Path) (fs : FS) (id : String) (v : Json)
    (h : fs (userFilePath dirname id) = some (.file (.json v))) :
    storedDoc dirname fs id = some v := by
  simp [storedDoc, readFile_of_file _ _ _ h, jsonParse]

/-- GetOrCreate on a stored document is a pure read. -/
theorem getOrCreate_stored (dirname : Path) (fs : FS) (id now : String) (v : Json)
    (h : fs (userFilePath dirname id) = some (.file (.json v))) :
    getOrCreate dirname fs id now = (.json v, fs) := by
  simp [getOrCreate, stat_of_some _ _ _ h, readFile_of_file _ _ _ h, jsonParse]

/-- A successful call on an identifier leaves a parsed document in its file; for
GetOrCreate and MergeUpdate that document is the reply. -/
theorem step_leaves_document (dirname : Path) (fs fs1 : FS) (op : Op) (id : String)
    (body : Json) (hid : op.userId = some id)
    (hok : step dirname fs op = (.json body, fs1)) :
    ∃ r, fs1 (userFilePath dirname id) = some (.file (.json r))
      ∧ (op.repliesRecord = true → body = r) := by
  cases op with
  | listAll => simp [Op.userId] at hid
  | broadcast b n => simp [Op.userId] at hid
  | getOrCreate id0 now =>
    simp only [Op.userId, Option.some.injEq] at hid
    subst hid
    simp only [step, getOrCreate] at hok
    split at hok
    · split at hok
      · rename_i fs2 hw
        simp only [Prod.mk.injEq, Response.json.injEq] at hok
        obtain ⟨hb, hf⟩ := hok
        subst hb hf
        exact ⟨_, (writeFile_spec _ _ _ _ hw).1, fun _ => rfl⟩
      · simp at hok
    · split at hok
      · rename_i user hr
        simp only [Prod.mk.injEq, Response.json.injEq] at hok
        obtain ⟨hb, hf⟩ := hok
        subst hb hf
        exact ⟨_, stored_of_read _ _ _ hr, fun _ => rfl⟩
      · simp at hok
  | mergeUpdate id0 data now =>
    simp only [Op.userId, Option.some.injEq] at hid
    subst hid
    simp only [step, mergeUpdate] at hok
    split at hok
    · simp at hok
    · split at hok
      · rename_i fs2 hw
        simp only [Prod.mk.injEq, Response.json.injEq] at hok
        obtain ⟨hb, hf⟩ := hok
        subst hb hf
        exact ⟨_, (writeFile_spec _ _ _ _ hw).1, fun _ => rfl⟩
      · simp at hok
  | appendMessage id0 b n1 n2 =>
    simp only [Op.userId, Option.some.injEq] at hid
    subst hid
    simp only [step, appendMessage] at hok
    split at hok
    · simp at hok
    · split at hok
      · simp at hok
      · split at hok
        · simp at hok
        · split at hok
          · simp at hok
          · split at hok
            · simp at hok
            · rename_i fs2 hw
              simp only [Prod.mk.injEq, Response.json.injEq] at hok
              obtain ⟨hb, hf⟩ := hok
              subst hf
              exact ⟨_, (writeFile_spec _ _ _ _ hw).1, fun h => by simp [Op.repliesRecord] at h⟩

/-- C8. After a successful GetOrCreate, MergeUpdate or AppendMessage on `id`, a
following GetOrCreate on `id` replies with the document the call left persisted
for `id` and leaves the file system as it is; for GetOrCreate and MergeUpdate
that document is the reply of the call, so that two GetOrCreate in sequence reply
with equal records. -/
theorem getOrCreate_roundTrip (dirname : Path) (fs fs1 : FS) (op : Op) (id : String)
    (body : Json) (now2 : String) (hid : op.userId = some id)
    (hok : step dirname fs op = (.json body, fs1)) :
    ∃ r, storedDoc dirname fs1 id = some r
      ∧ getOrCreate dirname fs1 id now2 = (.json r, fs1)
      ∧ (op.repliesRecord = true → body = r) := by
  obtain ⟨r, hr, hb⟩ := step_leaves_document dirname fs fs1 op id body hid hok
  exact ⟨r, storedDoc_of_file _ _ _ _ hr, getOrCreate_stored _ _ _ _ _ hr, hb⟩

end UserStore

namespace UserStore

/-- C2, as stated, fails: after GetOrCreate has fixed `createdAt` to the reading
`t0`, a MergeUpdate whose payload carries `createdAt` replaces it. -/
theorem mergeUpdate_overwrites_createdAt :
    storedField ["app"] (getOrCreate ["app"] fsEmpty "u" "t0").2 "u" "createdAt"
        = some (.str "t0")
      ∧ storedField ["app"] (mergeUpdate ["app"] (getOrCreate ["app"] fsEmpty "u" "t0").2 "u"
          (.obj [("createdAt", .str "x")]) "t1").2 "u" "createdAt" = some (.str "x")
      ∧ (mergeUpdate ["app"] (getOrCreate ["app"] fsEmpty "u" "t0").2 "u"
          (.obj [("createdAt", .str "x")]) "t1").1
        = .json (.obj [("id", .str "u"), ("username", .str "user_u"), ("coins", .num 0),
            ("level", .num 1), ("messages", .arr []), ("createdAt", .str "x")]) := by
  decide

/-- C2, amended. Once the file of `id` holds a record with `createdAt` equal to
`c`, after any number of MergeUpdate calls on `id` whose payloads have no
`createdAt` key the persisted record still has `createdAt` equal to `c`. -/
theorem mergeUpdate_preserves_createdAt (dirname : Path) (fs : FS) (id : String)
    (kvs : List (String × Json)) (c : Json) (payloads : List (Body × String))
    (hrec : fs (userFilePath dirname id) = some (.file (.json (.obj kvs))))
    (hc : getField kvs "createdAt" = some c)
    (hpay : ∀ d ∈ payloads, hasField (ownEntries d.1.written) "createdAt" = false) :
    storedField dirname (run dirname fs (payloads.map (fun d => Op.mergeUpdate id d.1 d.2)))
      id "createdAt" = some c := by
  induction payloads generalizing fs kvs with
  | nil =>
    simp [run, storedField, storedDoc_of_file _ _ _ _ hrec, field, hc]
  | cons d rest ih =>
    have hstep : step dirname fs (Op.mergeUpdate id d.1 d.2)
        = (.json (mergeUser (.obj kvs) d.1.written id),
            fs.set (userFilePath dirname id)
              (.file (.json (mergeUser (.obj kvs) d.1.written id)))) :=
      mergeUpdate_stored dirname fs id d.1 d.2 (.obj kvs) hrec
    have hd : getField (ownEntries d.1.written) "createdAt" = none :=
      getField_eq_none_of_not_hasField _ _ (hpay d (List.mem_cons_self _ _))
    have hc1 : getField (objectLiteral (kvs ++ ownEntries d.1.written ++ [("id", .str id)]))
        "createdAt" = some c := by
      rw [getField_mergeUser]
      simp [hd, hc]
    have := ih
      (fs.set (userFilePath dirname id) (.file (.json (mergeUser (.obj kvs) d.1.written id))))
      (objectLiteral (kvs ++ ownEntries d.1.written ++ [("id", .str id)]))
      (by simp [FS.set_same, mergeUser, ownEntries]) hc1
      (fun e he => hpay e (List.mem_cons_of_mem _ he))
    simpa [run, hstep] using this

end UserStore

namespace UserStore

theorem pushMessage_prev (kvs : List (String × Json)) (prev : List Json) (msg : Json)
    (h : prevMessages kvs = some prev) :
    pushMessage (.obj kvs) msg = some (.obj (setField kvs "messages" (.arr (prev ++ [msg])))) := by
  unfold prevMessages at h
  cases hm : getField kvs "messages" with
  | none =>
    rw [hm] at h
    simp only [Option.some.injEq] at h
    subst h
    simp [pushMessage, hm, truthy]
  | some v =>
    rw [hm] at h
    cases v with
    | null =>
      simp only [Option.some.injEq] at h
      subst h
      simp [pushMessage, hm, truthy]
    | arr xs =>
      simp only [Option.some.injEq] at h
      subst h
      simp [pushMessage, hm, truthy]
    | bool b => simp at h
    | num n => simp at h
    | str s => simp at h
    | obj o => simp at h

/-- AppendMessage on a stored record whose `messages` is absent, `null` or a
sequence. -/
theorem appendMessage_stored (dirname : Path) (fs : FS) (id : String) (r : MessageRequest)
    (kvs : List (String × Json)) (prev : List Json)
    (hfrom : Body.truthy (r.body.field "from") = true) (htext : Body.truthy (r.body.field "text") = true)
    (hrec : fs (userFilePath dirname id) = some (.file (.json (.obj kvs))))
    (hprev : prevMessages kvs = some prev) :
    appendMessage dirname fs id r.body r.nowCreated r.nowDate
      = (.json (.obj [("ok", .bool true), ("message", messageOf r)]),
          fs.set (userFilePath dirname id)
            (.file (.json (.obj (setField kvs "messages" (.arr (prev ++ [messageOf r]))))))) := by
  simp [appendMessage, hfrom, htext, stat_of_some _ _ _ hrec, readFile_of_file _ _ _ hrec,
    jsonParse, pushMessage_prev kvs prev _ hprev, writeFile_existing _ _ _ _ hrec, jsonStringify,
    messageOf]

/-- AppendMessage on an absent identifier whose directory exists: the stub is
written first, then the message is appended to it. -/
theorem appendMessage_absent (dirname : Path) (fs : FS) (id : String) (r : MessageRequest)
    (es : List String)
    (hfrom : Body.truthy (r.body.field "from") = true) (htext : Body.truthy (r.body.field "text") = true)
    (habsent : stat fs (userFilePath dirname id) = false)
    (hnul : holdsNul (userFilePath dirname id) = false)
    (hdir : fs (userFilePath dirname id).dropLast = some (.dir es)) :
    ∃ fs1, writeFile fs (userFilePath dirname id)
          (jsonStringify (.obj (messageStub id r.nowCreated))) = some fs1
      ∧ appendMessage dirname fs id r.body r.nowCreated r.nowDate
        = (.json (.obj [("ok", .bool true), ("message", messageOf r)]),
            fs1.set (userFilePath dirname id)
              (.file (.json (.obj (setField (messageStub id r.nowCreated) "messages"
                (.arr ([] ++ [messageOf r]))))))) := by
  obtain ⟨fs1, hw⟩ := writeFile_userFile dirname fs id
    (jsonStringify (.obj (messageStub id r.nowCreated))) es habsent hnul hdir
  have h1 := (writeFile_spec _ _ _ _ hw).1
  have hprev : prevMessages (messageStub id r.nowCreated) = some [] := by
    simp [prevMessages, messageStub, getField_cons, getField]
  refine ⟨fs1, hw, ?_⟩
  have hw2 : writeFile fs (userFilePath dirname id)
      (jsonStringify (.obj [("id", .str id), ("messages", .arr []), ("coins", .num 0),
        ("createdAt", .str r.nowCreated)])) = some fs1 := hw
  simp only [appendMessage, hfrom, htext, habsent, Bool.not_true, Bool.not_false, Bool.or_self,
    Bool.false_eq_true, if_false, if_true, hw2]
  simp only [readFile_of_file _ _ _ h1, jsonStringify, Option.some_bind, jsonParse]
  have hp := pushMessage_prev (messageStub id r.nowCreated) [] (messageOf r) hprev
  unfold messageStub messageOf at hp
  simp only [hp, writeFile_existing _ _ _ _ h1]
  rfl

/-- Successive appends to a record whose `messages` is a sequence. -/
theorem appendAll_stored (dirname : Path) (id : String) (reqs : List MessageRequest) :
    ∀ (fs : FS) (kvs : List (String × Json)) (prev : List Json),
      (∀ r ∈ reqs, Body.truthy (r.body.field "from") = true ∧ Body.truthy (r.body.field "text") = true) →
      fs (userFilePath dirname id) = some (.file (.json (.obj kvs))) →
      getField kvs "messages" = some (.arr prev) →
      (appendAll dirname fs id reqs).1
          = reqs.map (fun r => Response.json (.obj [("ok", .bool true), ("message", messageOf r)]))
        ∧ (∃ kvs1, (appendAll dirname fs id reqs).2 (userFilePath dirname id)
              = some (.file (.json (.obj kvs1)))
            ∧ getField kvs1 "messages" = some (.arr (prev ++ reqs.map messageOf))
            ∧ ∀ k, k ≠ "messages" → getField kvs1 k = getField kvs k)
        ∧ ∀ q, q ≠ userFilePath dirname id → (appendAll dirname fs id reqs).2 q = fs q := by
  induction reqs with
  | nil =>
    intro fs kvs prev _ hrec hm
    exact ⟨rfl, ⟨kvs, hrec, by simpa using hm, fun _ _ => rfl⟩, fun _ _ => rfl⟩
  | cons r rest ih =>
    intro fs kvs prev hreq hrec hm
    have hr := hreq r (List.mem_cons_self _ _)
    have hprev : prevMessages kvs = some prev := by simp [prevMessages, hm]
    have hstep := appendMessage_stored dirname fs id r kvs prev hr.1 hr.2 hrec hprev
    obtain ⟨h1, ⟨kvs1, h2, h3, h4⟩, h5⟩ := ih
      (fs.set (userFilePath dirname id)
        (.file (.json (.obj (setField kvs "messages" (.arr (prev ++ [messageOf r])))))))
      (setField kvs "messages" (.arr (prev ++ [messageOf r]))) (prev ++ [messageOf r])
      (fun x hx => hreq x (List.mem_cons_of_mem _ hx)) (FS.set_same _ _ _)
      (by rw [getField_setField]; simp)
    simp only [appendAll, hstep, List.map_cons]
    refine ⟨by rw [h1], ⟨kvs1, h2, by simpa using h3, ?_⟩, ?_⟩
    · intro k hk
      rw [h4 k hk, getField_setField]
      simp [hk]
    · intro q hq
      rw [h5 q hq, FS.set_other _ _ _ _ hq]

end UserStore

namespace UserStore

theorem readFile_congr (fs fs1 : FS) (q : Path) (h : fs1 q = fs q) :
    readFile fs1 q = readFile fs q := by
  simp [readFile, h]

/-- C6, as stated, fails: on the empty data directory AppendMessage with truthy
`from` and `text` on the identifier `a/b`, whose record is absent, replies 500
`message-failed` and persists nothing, the directory of its file being missing;
so it does on an identifier that holds U+0000. -/
theorem appendMessage_cumulative_fails :
    stat fsEmpty (userFilePath ["app"] "a/b") = false
      ∧ (appendMessage ["app"] fsEmpty "a/b" (.obj [("from", .str "admin"), ("text", .str "hi")])
          "t0" "t1").1 = .error 500 "message-failed"
      ∧ stat (appendMessage ["app"] fsEmpty "a/b"
          (.obj [("from", .str "admin"), ("text", .str "hi")]) "t0" "t1").2
          (userFilePath ["app"] "a/b") = false
      ∧ stat fsEmpty (userFilePath ["app"] "a\x00") = false
      ∧ (appendMessage ["app"] fsEmpty "a\x00"
          (.obj [("from", .str "admin"), ("text", .str "hi")]) "t0" "t1").1
        = .error 500 "message-failed"
      ∧ stat (appendMessage ["app"] fsEmpty "a\x00"
          (.obj [("from", .str "admin"), ("text", .str "hi")]) "t0" "t1").2
          (userFilePath ["app"] "a\x00") = false := by
  decide

/-- C6, amended. Successive AppendMessage calls with truthy `from` and `text` on
an identifier whose file path holds no U+0000, from a store where the record of
`id` has `messages` absent, `null` or a sequence, or is absent in an existing
directory (the base then being the stub of the first call): each call replies with
its own message, made of `from` and `text` as `JSON.stringify` writes them and of
`date`; after the calls the persisted record has `messages` equal to the previous
messages followed by the new messages in the order of the calls, every other
property as in the base, and every other file reads as before. -/
theorem appendMessage_cumulative (dirname : Path) (fs : FS) (id : String)
    (reqs : List MessageRequest) (kvs : List (String × Json)) (prev : List Json)
    (es : List String)
    (hreq : ∀ r ∈ reqs,
      Body.truthy (r.body.field "from") = true ∧ Body.truthy (r.body.field "text") = true)
    (hnul : holdsNul (userFilePath dirname id) = false)
    (hbase : fs (userFilePath dirname id) = some (.file (.json (.obj kvs)))
      ∨ (stat fs (userFilePath dirname id) = false
          ∧ fs (userFilePath dirname id).dropLast = some (.dir es)
          ∧ ∃ r rest, reqs = r :: rest ∧ kvs = messageStub id r.nowCreated))
    (hprev : prevMessages kvs = some prev) :
    (appendAll dirname fs id reqs).1
        = reqs.map (fun r => Response.json (.obj [("ok", .bool true), ("message", messageOf r)]))
      ∧ (reqs ≠ [] → ∃ kvs1, (appendAll dirname fs id reqs).2 (userFilePath dirname id)
            = some (.file (.json (.obj kvs1)))
          ∧ getField kvs1 "messages" = some (.arr (prev ++ reqs.map messageOf))
          ∧ ∀ k, k ≠ "messages" → getField kvs1 k = getField kvs k)
      ∧ (∀ q, q ≠ userFilePath dirname id →
          readFile (appendAll dirname fs id reqs).2 q = readFile fs q)
      ∧ (∀ r ∈ reqs, ∃ f t, r.body.field "from" = some f ∧ r.body.field "text" = some t
          ∧ messageOf r
            = .obj [("from", f.written), ("text", t.written), ("date", .str r.nowDate)]) := by
  have hshape : ∀ r ∈ reqs, ∃ f t, r.body.field "from" = some f ∧ r.body.field "text" = some t
      ∧ messageOf r
        = .obj [("from", f.written), ("text", t.written), ("date", .str r.nowDate)] := by
    intro r hr
    obtain ⟨h1, h2⟩ := hreq r hr
    cases hf : r.body.field "from" with
    | none => rw [hf] at h1; simp [Body.truthy] at h1
    | some f =>
      cases ht : r.body.field "text" with
      | none => rw [ht] at h2; simp [Body.truthy] at h2
      | some t => exact ⟨f, t, rfl, rfl, by simp [messageOf, mkMessage, optField, hf, ht]⟩
  cases reqs with
  | nil => exact ⟨rfl, fun h => absurd rfl h, fun _ _ => rfl, hshape⟩
  | cons r rest =>
    have hr := hreq r (List.mem_cons_self _ _)
    have hrest : ∀ x ∈ rest,
        Body.truthy (x.body.field "from") = true ∧ Body.truthy (x.body.field "text") = true :=
      fun x hx => hreq x (List.mem_cons_of_mem _ hx)
    rcases hbase with hrec | ⟨habsent, hdir, r0, rest0, he, hstub⟩
    · have hstep := appendMessage_stored dirname fs id r kvs prev hr.1 hr.2 hrec hprev
      obtain ⟨h1, ⟨kvs1, h2, h3, h4⟩, h5⟩ := appendAll_stored dirname id rest
        (fs.set (userFilePath dirname id)
          (.file (.json (.obj (setField kvs "messages" (.arr (prev ++ [messageOf r])))))))
        (setField kvs "messages" (.arr (prev ++ [messageOf r]))) (prev ++ [messageOf r])
        hrest (FS.set_same _ _ _) (by rw [getField_setField]; simp)
      simp only [appendAll, hstep, List.map_cons]
      refine ⟨by rw [h1], fun _ => ⟨kvs1, h2, by simpa using h3, ?_⟩, ?_, hshape⟩
      · intro k hk
        rw [h4 k hk, getField_setField]
        simp [hk]
      · intro q hq
        apply readFile_congr
        rw [h5 q hq, FS.set_other _ _ _ _ hq]
    · simp only [List.cons.injEq] at he
      obtain ⟨he1, he2⟩ := he
      subst he1 he2
      subst hstub
      have hp0 : prev = [] := by
        have : prevMessages (messageStub id r.nowCreated) = some [] := by
          simp [prevMessages, messageStub, getField_cons, getField]
        rw [this] at hprev
        simpa using hprev.symm
      subst hp0
      obtain ⟨fs1, hw, hstep⟩ := appendMessage_absent dirname fs id r es hr.1 hr.2 habsent hnul hdir
      obtain ⟨-, hread, -, -⟩ := writeFile_spec _ _ _ _ hw
      obtain ⟨h1, ⟨kvs1, h2, h3, h4⟩, h5⟩ := appendAll_stored dirname id rest
        (fs1.set (userFilePath dirname id)
          (.file (.json (.obj (setField (messageStub id r.nowCreated) "messages"
            (.arr ([] ++ [messageOf r])))))))
        (setField (messageStub id r.nowCreated) "messages" (.arr ([] ++ [messageOf r])))
        ([] ++ [messageOf r])
        hrest (FS.set_same _ _ _) (by rw [getField_setField]; simp)
      simp only [appendAll, hstep, List.map_cons]
      refine ⟨by rw [h1], fun _ => ⟨kvs1, h2, by simpa using h3, ?_⟩, ?_, hshape⟩
      · intro k hk
        rw [h4 k hk, getField_setField]
        simp [hk]
      · intro q hq
        rw [readFile_congr _ _ q (h5 q hq)]
        rw [readFile_congr _ _ q (FS.set_other _ _ _ _ hq)]
        exact hread q hq

end UserStore

/-! ## Messages are only appended -/

namespace UserStore

theorem file_of_readFile (fs : FS) (q : Path) (t : Text) (h : readFile fs q = some t) :
    fs q = some (.file t) := by
  unfold readFile at h
  cases hq : fs q with
  | none => simp [hq] at h
  | some n =>
    cases n with
    | dir es => simp [hq] at h
    | file t0 => simp only [hq, Option.some.injEq] at h; rw [h]

theorem writeFile_keeps_file (fs fs1 : FS) (p q : Path) (t t0 : Text)
    (h : writeFile fs p t = some fs1) (hq : q ≠ p) (hf : fs q = some (.file t0)) :
    fs1 q = some (.file t0) := by
  apply file_of_readFile
  rw [(writeFile_spec _ _ _ _ h).2.1 q hq]
  exact readFile_of_file _ _ _ hf

theorem mkdirRev_keeps_file (l : List String) :
    ∀ (fs fs1 : FS) (q : Path) (t0 : Text), mkdirRev fs l = some fs1 →
      fs q = some (.file t0) → fs1 q = some (.file t0) := by
  induction l with
  | nil =>
    intro fs fs1 q t0 h hf
    unfold mkdirRev at h
    split at h
    · simp only [Option.some.injEq] at h; subst h; exact hf
    · simp at h
    · rename_i hroot
      simp only [Option.some.injEq] at h
      subst h
      have hq : q ≠ [] := fun e => by rw [e, hroot] at hf; simp at hf
      rw [FS.set_other _ _ _ _ hq]; exact hf
  | cons name up ih =>
    intro fs fs1 q t0 h hf
    unfold mkdirRev at h
    split at h
    · simp only [Option.some.injEq] at h; subst h; exact hf
    · simp at h
    · rename_i hnone
      split at h
      · simp at h
      · split at h
        · simp at h
        · rename_i fs2 hup
          have hf2 := ih fs fs2 q t0 hup hf
          split at h
          · rename_i es hd
            simp only [Option.some.injEq] at h
            subst h
            have hq1 : q ≠ (name :: up).reverse := fun e => by rw [e, hnone] at hf; simp at hf
            have hq2 : q ≠ up.reverse := fun e => by rw [e, hd] at hf2; simp at hf2
            rw [FS.set_other _ _ _ _ hq1, FS.set_other _ _ _ _ hq2]; exact hf2
          · simp at h

theorem extendsAt_refl (p : Path) (v : Json) (fs : FS) (h : fs p = some (.file (.json v))) :
    extendsAt p v fs :=
  ⟨v, [], h, by simp⟩

theorem extendsAt_write_other (p q : Path) (v : Json) (fs fs1 : FS) (t : Text)
    (hk : extendsAt p v fs) (hw : writeFile fs q t = some fs1) (hq : p ≠ q) :
    extendsAt p v fs1 := by
  obtain ⟨v1, ys, h1, h2⟩ := hk
  exact ⟨v1, ys, writeFile_keeps_file _ _ _ _ _ _ hw hq h1, h2⟩

theorem extendsAt_mkdir (p : Path) (v : Json) (fs fs1 : FS) (l : List String)
    (hk : extendsAt p v fs) (hm : mkdirRev fs l = some fs1) : extendsAt p v fs1 := by
  obtain ⟨v1, ys, h1, h2⟩ := hk
  exact ⟨v1, ys, mkdirRev_keeps_file l _ _ _ _ hm h1, h2⟩

/-- The push keeps the messages of a document and only adds after them. -/
theorem pushMessage_messagesOf (user user1 msg : Json) (h : pushMessage user msg = some user1) :
    ∃ ys, messagesOf user1 = messagesOf user ++ ys := by
  cases user with
  | null => simp [pushMessage] at h
  | bool b => simp [pushMessage] at h
  | num n => simp [pushMessage] at h
  | str s => simp [pushMessage] at h
  | arr items =>
    simp only [pushMessage, Option.some.injEq] at h
    subst h
    exact ⟨[], by simp⟩
  | obj kvs =>
    unfold pushMessage at h
    cases hm : getField kvs "messages" with
    | none =>
      simp only [hm, truthy, Bool.false_eq_true, if_false, Option.some.injEq] at h
      subst h
      exact ⟨[msg], by simp [messagesOf, field, hm, getField_setField]⟩
    | some m =>
      cases m with
      | arr xs =>
        simp only [hm, truthy, if_true, Option.some.injEq] at h
        subst h
        exact ⟨[msg], by simp [messagesOf, field, hm, getField_setField]⟩
      | null =>
        simp only [hm, truthy, Bool.false_eq_true, if_false, Option.some.injEq] at h
        subst h
        exact ⟨[msg], by simp [messagesOf, field, hm, getField_setField]⟩
      | bool b =>
        cases b with
        | true => simp [hm, truthy] at h
        | false =>
          simp only [hm, truthy, Bool.false_eq_true, if_false, Option.some.injEq] at h
          subst h
          exact ⟨[msg], by simp [messagesOf, field, hm, getField_setField]⟩
      | num n =>
        by_cases hn : n = 0
        · simp only [hm, truthy, hn, bne_self_eq_false, Bool.false_eq_true, if_false,
            Option.some.injEq] at h
          subst h
          exact ⟨[msg], by simp [messagesOf, field, hm, getField_setField]⟩
        · simp [hm, truthy, hn] at h
      | str s =>
        by_cases hs : s = ""
        · simp only [hm, truthy, hs, bne_self_eq_false, Bool.false_eq_true, if_false,
            Option.some.injEq] at h
          subst h
          exact ⟨[msg], by simp [messagesOf, field, hm, getField_setField]⟩
        · simp [hm, truthy, hs] at h
      | obj o => simp [hm, truthy] at h

/-- Reading a document, pushing a message and writing it back at any path keeps
the messages of the document at `p`. -/
theorem extendsAt_push (p q : Path) (v user user1 msg : Json) (fs fs1 : FS)
    (hk : extendsAt p v fs) (hr : (readFile fs q).bind jsonParse = some user)
    (hp : pushMessage user msg = some user1)
    (hw : writeFile fs q (jsonStringify user1) = some fs1) : extendsAt p v fs1 := by
  by_cases hq : p = q
  · subst hq
    obtain ⟨v1, ys, h1, h2⟩ := hk
    have hu := stored_of_read _ _ _ hr
    rw [h1] at hu
    simp only [Option.some.injEq, Node.file.injEq, Text.json.injEq] at hu
    subst hu
    obtain ⟨zs, hz⟩ := pushMessage_messagesOf _ _ _ hp
    exact ⟨user1, ys ++ zs, (writeFile_spec _ _ _ _ hw).1, by rw [hz, h2, List.append_assoc]⟩
  · exact extendsAt_write_other p q v fs fs1 _ hk hw hq

theorem extendsAt_broadcastLoop (dirname : Path) (frm text : Option Json) (now : Nat → String)
    (p : Path) (v : Json) (names : List String) :
    ∀ (i : Nat) (fs : FS), extendsAt p v fs →
      extendsAt p v (broadcastLoop dirname frm text now names i fs).2 := by
  induction names with
  | nil => intro i fs hk; exact hk
  | cons f rest ih =>
    intro i fs hk
    unfold broadcastLoop
    split
    · exact ih _ _ hk
    · simp only
      split
      · exact hk
      · rename_i user hr
        split
        · exact hk
        · rename_i user1 hp
          split
          · exact hk
          · rename_i fs1 hw
            exact ih _ _ (extendsAt_push p _ v user user1 _ fs fs1 hk hr hp hw)

end UserStore

namespace UserStore

theorem messagesOf_mergeUser (user data : Json) (id : String)
    (h : hasField (ownEntries data) "messages" = false) :
    ∃ ys, messagesOf (mergeUser user data id) = messagesOf user ++ ys := by
  have hd : getField (ownEntries data) "messages" = none :=
    getField_eq_none_of_not_hasField _ _ h
  have hm : field (mergeUser user data id) "messages" = getField (ownEntries user) "messages" := by
    simp only [mergeUser, field]
    rw [getField_mergeUser]
    simp [hd]
  have hmo : messagesOf (mergeUser user data id)
      = match getField (ownEntries user) "messages" with
        | some (.arr xs) => xs
        | _ => [] := by
    unfold messagesOf
    rw [hm]
  cases user with
  | obj kvs => exact ⟨[], by rw [hmo]; simp [messagesOf, field, ownEntries]⟩
  | null => exact ⟨_, by simp [messagesOf, field]; rfl⟩
  | bool b => exact ⟨_, by simp [messagesOf, field]; rfl⟩
  | num n => exact ⟨_, by simp [messagesOf, field]; rfl⟩
  | str s => exact ⟨_, by simp [messagesOf, field]; rfl⟩
  | arr items => exact ⟨_, by simp [messagesOf, field]; rfl⟩

/-- C3, as stated, fails: a MergeUpdate whose payload has a `messages` key
replaces the stored sequence, here a sequence of one message by the empty one. -/
theorem mergeUpdate_replaces_messages :
    (storedDoc ["app"] fsOneMessage "u").map messagesOf
        = some [.obj [("from", .str "admin"), ("text", .str "hi"), ("date", .str "t1")]]
      ∧ (mergeUpdate ["app"] fsOneMessage "u" (.obj [("messages", .arr [])]) "t2").1
        = .json (.obj [("id", .str "u"), ("messages", .arr []), ("coins", .num 0),
            ("createdAt", .str "t0")])
      ∧ (storedDoc ["app"]
            (mergeUpdate ["app"] fsOneMessage "u" (.obj [("messages", .arr [])]) "t2").2
            "u").map messagesOf = some [] := by
  decide

/-- C3, amended. For every call other than a MergeUpdate whose payload has a
`messages` key, every file that held a document before the call holds one after
it whose messages are the previous messages followed by zero or more new ones. -/
theorem messages_appendOnly (dirname : Path) (fs : FS) (op : Op) (p : Path) (v : Json)
    (hop : op.keepsMessages = true) (hrec : fs p = some (.file (.json v))) :
    ∃ v1 ys, (step dirname fs op).2 p = some (.file (.json v1))
      ∧ messagesOf v1 = messagesOf v ++ ys := by
  have hk : extendsAt p v fs := extendsAt_refl p v fs hrec
  show extendsAt p v (step dirname fs op).2
  cases op with
  | getOrCreate id now =>
    simp only [step, getOrCreate]
    split
    · rename_i hs
      split
      · rename_i fs1 hw
        refine extendsAt_write_other p _ v fs fs1 _ hk hw ?_
        intro e
        rw [← e, stat_of_some _ _ _ hrec] at hs
        simp at hs
      · exact hk
    · split <;> exact hk
  | mergeUpdate id data now =>
    simp only [Op.keepsMessages, Bool.not_eq_true'] at hop
    simp only [step, mergeUpdate]
    split
    · exact hk
    · rename_i user0 hbase
      split
      · rename_i fs1 hw
        by_cases hq : p = userFilePath dirname id
        · subst hq
          simp only [stat_of_some _ _ _ hrec, if_true, readFile_of_file _ _ _ hrec,
            Option.some_bind, jsonParse, Option.some.injEq] at hbase
          subst hbase
          obtain ⟨ys, hy⟩ := messagesOf_mergeUser v data.written id hop
          exact ⟨_, ys, (writeFile_spec _ _ _ _ hw).1, hy⟩
        · exact extendsAt_write_other p _ v fs fs1 _ hk hw hq
      · exact hk
  | appendMessage id body n1 n2 =>
    simp only [step, appendMessage]
    split
    · exact hk
    · split
      · exact hk
      · rename_i fs1 hcreated
        have hk1 : extendsAt p v fs1 := by
          split at hcreated
          · rename_i hs
            refine extendsAt_write_other p _ v fs fs1 _ hk hcreated ?_
            intro e
            rw [← e, stat_of_some _ _ _ hrec] at hs
            simp at hs
          · simp only [Option.some.injEq] at hcreated
            subst hcreated
            exact hk
        split
        · exact hk1
        · rename_i user hr
          split
          · exact hk1
          · rename_i user1 hp
            split
            · exact hk1
            · rename_i fs2 hw
              exact extendsAt_push p _ v user user1 _ fs1 fs2 hk1 hr hp hw
  | listAll =>
    simp only [step, listAll, ensureDataDir]
    split
    · exact hk
    · rename_i fs1 hm
      have hk1 := extendsAt_mkdir p v fs fs1 _ hk hm
      split
      · exact hk1
      · split <;> exact hk1
  | broadcast body now =>
    simp only [step, broadcast, ensureDataDir]
    split
    · exact hk
    · split
      · exact hk
      · rename_i fs1 hm
        have hk1 := extendsAt_mkdir p v fs fs1 _ hk hm
        split
        · exact hk1
        · rename_i files hfiles
          have hloop := fun frm text =>
            extendsAt_broadcastLoop dirname frm text now p v files 0 fs1 hk1
          split
          · rename_i fs2 hl
            have h2 := congrArg Prod.snd hl
            simp only at h2
            rw [← h2]
            exact hloop _ _
          · rename_i fs2 hl
            have h2 := congrArg Prod.snd hl
            simp only at h2
            rw [← h2]
            exact hloop _ _

end UserStore

/-! ## Broadcast -/

namespace UserStore

theorem mkdirRev_of_dir (fs : FS) (l : List String) (es : List String)
    (h : fs l.reverse = some (.dir es)) : mkdirRev fs l = some fs := by
  cases l with
  | nil =>
    simp only [List.reverse_nil] at h
    simp [mkdirRev, h]
  | cons name up =>
    unfold mkdirRev
    rw [h]

theorem ensureDataDir_of_dir (dirname : Path) (fs : FS) (es : List String)
    (h : fs (DATA_DIR dirname) = some (.dir es)) : ensureDataDir dirname fs = some fs := by
  unfold ensureDataDir
  apply mkdirRev_of_dir fs _ es
  simpa using h

/-- The broadcast loop over entries that all are `.json` files holding a record
whose `messages` is absent, `null` or a sequence: it completes, every entry gets
the message of its index after its previous messages, nothing else changes. -/
theorem broadcastLoop_all (dirname : Path) (frm text : Option Json) (now : Nat → String)
    (names : List String) :
    ∀ (i : Nat) (fs : FS), names.Nodup →
      (∀ f ∈ names, endsWithJson f = true ∧ '/' ∉ f.toList
        ∧ ∃ kvs prev, fs (DATA_DIR dirname ++ [f]) = some (.file (.json (.obj kvs)))
            ∧ prevMessages kvs = some prev) →
      ∃ fs2, broadcastLoop dirname frm text now names i fs = (true, fs2)
        ∧ (∀ j f kvs prev, names[j]? = some f →
            fs (DATA_DIR dirname ++ [f]) = some (.file (.json (.obj kvs))) →
            prevMessages kvs = some prev →
            fs2 (DATA_DIR dirname ++ [f]) = some (.file (.json (.obj
              (setField kvs "messages" (.arr (prev ++ [mkMessage frm text (now (i + j))])))))))
        ∧ (∀ q, (∀ f ∈ names, q ≠ DATA_DIR dirname ++ [f]) → fs2 q = fs q) := by
  induction names with
  | nil =>
    intro i fs _ _
    exact ⟨fs, rfl, by simp, fun _ _ => rfl⟩
  | cons f rest ih =>
    intro i fs hnd hall
    obtain ⟨hj, hs, kvs, prev, hrec, hprev⟩ := hall f (List.mem_cons_self _ _)
    have hp : pathJoin (DATA_DIR dirname) f = DATA_DIR dirname ++ [f] :=
      pathJoin_entry dirname f hs hj
    have hnf : f ∉ rest := (List.nodup_cons.mp hnd).1
    have hne : ∀ g ∈ rest, DATA_DIR dirname ++ [g] ≠ DATA_DIR dirname ++ [f] := by
      intro g hg e
      have : g = f := by simpa using e
      exact hnf (this ▸ hg)
    obtain ⟨fs2, hloop, hdone, hframe⟩ := ih (i + 1)
      (fs.set (DATA_DIR dirname ++ [f]) (.file (.json (.obj
        (setField kvs "messages" (.arr (prev ++ [mkMessage frm text (now i)])))))))
      (List.nodup_cons.mp hnd).2
      (fun g hg => by
        obtain ⟨h1, h2, kvs', prev', h3, h4⟩ := hall g (List.mem_cons_of_mem _ hg)
        exact ⟨h1, h2, kvs', prev', by rw [FS.set_other _ _ _ _ (hne g hg)]; exact h3, h4⟩)
    refine ⟨fs2, ?_, ?_, ?_⟩
    · unfold broadcastLoop
      simp only [hj, Bool.not_true, Bool.false_eq_true, if_false, hp,
        readFile_of_file _ _ _ hrec, Option.some_bind, jsonParse,
        pushMessage_prev kvs prev _ hprev, writeFile_existing _ _ _ _ hrec, jsonStringify]
      exact hloop
    · intro j g kvs' prev' hg hrec' hprev'
      cases j with
      | zero =>
        simp only [List.getElem?_cons_zero, Option.some.injEq] at hg
        subst hg
        rw [hrec] at hrec'
        simp only [Option.some.injEq, Node.file.injEq, Text.json.injEq, Json.obj.injEq] at hrec'
        subst hrec'
        rw [hprev] at hprev'
        simp only [Option.some.injEq] at hprev'
        subst hprev'
        rw [hframe _ (fun g hg => (hne g hg).symm), FS.set_same]
        rfl
      | succ j =>
        simp only [List.getElem?_cons_succ] at hg
        have hgm : g ∈ rest := by
          obtain ⟨hlt, hget⟩ := List.getElem?_eq_some.mp hg
          exact hget ▸ List.getElem_mem hlt
        have := hdone j g kvs' prev' hg
          (by rw [FS.set_other _ _ _ _ (hne g hgm)]; exact hrec') hprev'
        rw [this]
        have : i + 1 + j = i + (j + 1) := by omega
        rw [this]
    · intro q hq
      rw [hframe q (fun g hg => hq g (List.mem_cons_of_mem _ hg)),
        FS.set_other _ _ _ _ (hq f (List.mem_cons_self _ _))]

end UserStore

namespace UserStore

/-- C4, as stated, fails: with one persisted record whose `messages` is a string
(written by MergeUpdate), Broadcast with a text and no `from` replies 500
`broadcast-failed` instead of `sentTo` 1, and the record gains no message. -/
theorem broadcast_fails_on_text_messages :
    readdir fsTextMessages (DATA_DIR ["app"]) = some ["u.json"]
      ∧ storedDoc ["app"] fsTextMessages "u"
        = some (.obj [("id", .str "u"), ("createdAt", .str "t0"), ("messages", .str "oops")])
      ∧ (broadcast ["app"] fsTextMessages (.obj [("text", .str "hello")]) (fun _ => "t9")).1
        = .error 500 "broadcast-failed"
      ∧ storedDoc ["app"]
          (broadcast ["app"] fsTextMessages (.obj [("text", .str "hello")]) (fun _ => "t9")).2 "u"
        = some (.obj [("id", .str "u"), ("createdAt", .str "t0"), ("messages", .str "oops")]) := by
  decide

/-- The count `sentTo` is the number of directory entries, also of those the loop
skips: with the single entry `notes.txt` Broadcast replies `sentTo` 1. -/
theorem broadcast_counts_skipped_entries :
    (broadcast ["app"] fsNotes (.obj [("text", .str "hello")]) (fun _ => "t9")).1
      = .json (.obj [("ok", .bool true), ("sentTo", .num 1)]) := by
  decide

/-- C4, amended. When every entry of the data directory is a `.json` file holding
a record whose `messages` is absent, `null` or a sequence, Broadcast with a truthy
text `t` and no `from` replies `sentTo` equal to the number of entries; the record
of the entry of index `i` then has `messages` equal to its previous messages
followed by the one message with `from` `admin`, `text` `t` (as `JSON.stringify`
writes it) and the date read for index `i`, and its other properties unchanged; nothing but these files changes,
and with no entry the file system is left as it was. -/
theorem broadcast_reaches_all (dirname : Path) (fs : FS) (body t : Body) (now : Nat → String)
    (names : List String)
    (hfrom : body.field "from" = none) (htext : body.field "text" = some t)
    (ht : Body.truthy (some t) = true)
    (hdir : fs (DATA_DIR dirname) = some (.dir names)) (hnodup : names.Nodup)
    (hnames : ∀ f ∈ names, endsWithJson f = true ∧ '/' ∉ f.toList
      ∧ ∃ kvs prev, fs (DATA_DIR dirname ++ [f]) = some (.file (.json (.obj kvs)))
          ∧ prevMessages kvs = some prev) :
    (broadcast dirname fs body now).1
        = .json (.obj [("ok", .bool true), ("sentTo", .num names.length)])
      ∧ (∀ i f kvs prev, names[i]? = some f →
          fs (DATA_DIR dirname ++ [f]) = some (.file (.json (.obj kvs))) →
          prevMessages kvs = some prev →
          ∃ kvs1, (broadcast dirname fs body now).2 (DATA_DIR dirname ++ [f])
              = some (.file (.json (.obj kvs1)))
            ∧ getField kvs1 "messages" = some (.arr (prev ++
                [.obj [("from", .str "admin"), ("text", t.written), ("date", .str (now i))]]))
            ∧ ∀ k, k ≠ "messages" → getField kvs1 k = getField kvs k)
      ∧ (∀ q, (∀ f ∈ names, q ≠ DATA_DIR dirname ++ [f]) →
          (broadcast dirname fs body now).2 q = fs q)
      ∧ (names = [] → (broadcast dirname fs body now).2 = fs) := by
  obtain ⟨fs2, hloop, hdone, hframe⟩ := broadcastLoop_all dirname (some (.str "admin"))
    (some t.written) now names 0 fs hnodup hnames
  have hb : broadcast dirname fs body now
      = (.json (.obj [("ok", .bool true), ("sentTo", .num names.length)]), fs2) := by
    simp only [broadcast, hfrom, htext, ht, Bool.not_true, Bool.false_eq_true, if_false,
      ensureDataDir_of_dir dirname fs names hdir, readdir, hdir, Option.map_some', Body.written,
      hloop]
  rw [hb]
  refine ⟨rfl, ?_, hframe, ?_⟩
  · intro i f kvs prev hi hrec hprev
    refine ⟨_, hdone i f kvs prev hi hrec hprev, ?_, ?_⟩
    · rw [getField_setField]
      simp [mkMessage, optField]
    · intro k hk
      rw [getField_setField]
      simp [hk]
  · intro he
    subst he
    simp only [broadcastLoop, Prod.mk.injEq, true_and] at hloop
    exact hloop.symm

end UserStore

/-! ## Storage key and `id` -/

namespace UserStore

theorem json_name_inj (a b : String) (h : a ++ ".json" = b ++ ".json") : a = b := by
  have h1 : (a ++ ".json").data = (b ++ ".json").data := congrArg String.data h
  rw [String.data_append, String.data_append] at h1
  exact String.ext (List.append_cancel_right h1)

theorem concat_ne_self (d : Path) (name : String) : d ++ [name] ≠ d := by
  intro e
  have := congrArg List.length e
  simp at this

theorem keyed_of_empty (dirname : Path) (fs : FS) (h : emptyStore dirname fs) :
    keyed dirname fs := by
  obtain ⟨h1, h2⟩ := h
  refine ⟨[], h1, List.nodup_nil, ?_, ?_⟩
  · intro name
    simp [h2 name]
  · intro name hn
    simp at hn

/-- Replacing the text of an existing file keeps the invariant when, in case the
file is an entry of the data directory, the new text is a record with the `id` of
its name. -/
theorem keyed_set (dirname : Path) (fs : FS) (p : Path) (t0 t : Text)
    (hk : keyed dirname fs) (hfile : fs p = some (.file t0))
    (hnew : ∀ name, p = DATA_DIR dirname ++ [name] → ∃ k kvs, name = k ++ ".json"
      ∧ '/' ∉ k.toList ∧ t = .json (.obj kvs) ∧ getField kvs "id" = some (.str k)) :
    keyed dirname (fs.set p (.file t)) := by
  obtain ⟨names, hd, hnd, hmem, hrec⟩ := hk
  have hpd : DATA_DIR dirname ≠ p := fun e => by rw [← e, hd] at hfile; simp at hfile
  refine ⟨names, by rw [FS.set_other _ _ _ _ hpd]; exact hd, hnd, ?_, ?_⟩
  · intro name
    by_cases hq : DATA_DIR dirname ++ [name] = p
    · rw [hq, FS.set_same, hmem name, hq, hfile]
      simp
    · rw [FS.set_other _ _ _ _ hq]
      exact hmem name
  · intro name hn
    by_cases hq : DATA_DIR dirname ++ [name] = p
    · obtain ⟨k, kvs, h1, h2, h3, h4⟩ := hnew name hq.symm
      exact ⟨k, kvs, h1, h2, by rw [hq, FS.set_same, h3], h4⟩
    · rw [FS.set_other _ _ _ _ hq]
      exact hrec name hn

/-- A successful write of a record with `id` equal to `k` to the file `k.json` of
the data directory keeps the invariant. -/
theorem keyed_write (dirname : Path) (fs fs1 : FS) (k : String) (kvs : List (String × Json))
    (hk : keyed dirname fs) (hs : '/' ∉ k.toList) (hid : getField kvs "id" = some (.str k))
    (hw : writeFile fs (DATA_DIR dirname ++ [k ++ ".json"]) (jsonStringify (.obj kvs)) = some fs1) :
    keyed dirname fs1 := by
  cases hp : fs (DATA_DIR dirname ++ [k ++ ".json"]) with
  | some n =>
    cases n with
    | dir es => simp [writeFile, hp] at hw
    | file t0 =>
      rw [writeFile_existing _ _ _ _ hp] at hw
      simp only [Option.some.injEq] at hw
      subst hw
      refine keyed_set dirname fs _ t0 _ hk hp ?_
      intro name hname
      have : k ++ ".json" = name := by simpa using hname
      exact ⟨k, kvs, this.symm, hs, rfl, hid⟩
  | none =>
    obtain ⟨names, hd, hnd, hmem, hrec⟩ := hk
    have hdrop : (DATA_DIR dirname ++ [k ++ ".json"]).dropLast = DATA_DIR dirname :=
      List.dropLast_concat
    have hlast : (DATA_DIR dirname ++ [k ++ ".json"]).getLast? = some (k ++ ".json") :=
      List.getLast?_concat _
    have hn : holdsNul (DATA_DIR dirname ++ [k ++ ".json"]) = false := by
      cases hnl : holdsNul (DATA_DIR dirname ++ [k ++ ".json"]) with
      | false => rfl
      | true => rw [writeFile_nul _ _ _ hp hnl] at hw; simp at hw
    rw [writeFile_new fs _ _ (k ++ ".json") names hp hn hlast (by rw [hdrop]; exact hd)] at hw
    simp only [Option.some.injEq] at hw
    subst hw
    rw [hdrop]
    have hnot : k ++ ".json" ∉ names := fun hm => (hmem _).mp hm hp
    refine ⟨names ++ [k ++ ".json"], ?_, ?_, ?_, ?_⟩
    · rw [FS.set_other _ _ _ _ (concat_ne_self _ _).symm, FS.set_same]
    · rw [List.nodup_append]
      refine ⟨hnd, List.nodup_singleton _, ?_⟩
      intro a ha hb
      simp only [List.mem_singleton] at hb
      exact hnot (hb ▸ ha)
    · intro name
      by_cases hq : name = k ++ ".json"
      · subst hq
        simp [FS.set_same]
      · have hq1 : DATA_DIR dirname ++ [name] ≠ DATA_DIR dirname ++ [k ++ ".json"] := by
          simpa using hq
        rw [FS.set_other _ _ _ _ hq1, FS.set_other _ _ _ _ (concat_ne_self _ _)]
        simp [hq, hmem name]
    · intro name hn
      by_cases hq : name = k ++ ".json"
      · subst hq
        exact ⟨k, kvs, rfl, hs, by rw [FS.set_same]; rfl, hid⟩
      · have hq1 : DATA_DIR dirname ++ [name] ≠ DATA_DIR dirname ++ [k ++ ".json"] := by
          simpa using hq
        rw [FS.set_other _ _ _ _ hq1, FS.set_other _ _ _ _ (concat_ne_self _ _)]
        have hn1 : name ∈ names := by
          rcases List.mem_append.mp hn with h | h
          · exact h
          · exact absurd (by simpa using h) hq
        exact hrec name hn1

/-- The push on a record keeps its `id`. -/
theorem pushMessage_obj_id (kvs : List (String × Json)) (msg user1 : Json)
    (h : pushMessage (.obj kvs) msg = some user1) :
    ∃ kvs1, user1 = .obj kvs1 ∧ getField kvs1 "id" = getField kvs "id" := by
  have hset : ∀ v, getField (setField kvs "messages" v) "id" = getField kvs "id" := by
    intro v
    rw [getField_setField]
    simp
  simp only [pushMessage] at h
  split at h
  · split at h
    · simp only [Option.some.injEq] at h
      exact ⟨_, h.symm, hset _⟩
    · simp at h
  · simp only [Option.some.injEq] at h
    exact ⟨_, h.symm, hset _⟩

/-- Reading a document, pushing a message and writing it back at any path keeps
the invariant. -/
theorem keyed_push (dirname : Path) (fs fs1 : FS) (p : Path) (user user1 msg : Json)
    (hk : keyed dirname fs) (hr : (readFile fs p).bind jsonParse = some user)
    (hp : pushMessage user msg = some user1)
    (hw : writeFile fs p (jsonStringify user1) = some fs1) : keyed dirname fs1 := by
  have hfile := stored_of_read _ _ _ hr
  rw [writeFile_existing _ _ _ _ hfile] at hw
  simp only [Option.some.injEq] at hw
  subst hw
  refine keyed_set dirname fs p _ _ hk hfile ?_
  intro name hname
  obtain ⟨names, hd, hnd, hmem, hrec⟩ := hk
  have hn : name ∈ names := (hmem name).mpr (by rw [← hname, hfile]; simp)
  obtain ⟨k, kvs, h1, h2, h3, h4⟩ := hrec name hn
  rw [← hname, hfile] at h3
  simp only [Option.some.injEq, Node.file.injEq, Text.json.injEq] at h3
  subst h3
  obtain ⟨kvs1, e1, e2⟩ := pushMessage_obj_id kvs msg user1 hp
  exact ⟨k, kvs1, h1, h2, by rw [e1]; rfl, by rw [e2, h4]⟩

theorem keyed_broadcastLoop (dirname : Path) (frm text : Option Json) (now : Nat → String)
    (names : List String) :
    ∀ (i : Nat) (fs : FS), keyed dirname fs →
      keyed dirname (broadcastLoop dirname frm text now names i fs).2 := by
  induction names with
  | nil => intro i fs hk; exact hk
  | cons f rest ih =>
    intro i fs hk
    unfold broadcastLoop
    split
    · exact ih _ _ hk
    · simp only
      split
      · exact hk
      · rename_i user hr
        split
        · exact hk
        · rename_i user1 hp
          split
          · exact hk
          · rename_i fs1 hw
            exact ih _ _ (keyed_push dirname fs fs1 _ user user1 _ hk hr hp hw)

theorem keyed_ensureDataDir (dirname : Path) (fs : FS) (hk : keyed dirname fs) :
    ensureDataDir dirname fs = some fs := by
  obtain ⟨names, hd, -⟩ := hk
  exact ensureDataDir_of_dir dirname fs names hd

end UserStore

namespace UserStore

theorem getField_mergeUser_id (user data : Json) (id : String) :
    ∃ kvs, mergeUser user data id = .obj kvs ∧ getField kvs "id" = some (.str id) := by
  refine ⟨_, rfl, ?_⟩
  rw [getField_mergeUser]
  simp

/-- Every call whose identifier has no slash keeps the invariant. -/
theorem keyed_step (dirname : Path) (fs : FS) (op : Op) (hk : keyed dirname fs)
    (hop : op.plainId) : keyed dirname (step dirname fs op).2 := by
  cases op with
  | getOrCreate id now =>
    have hs : '/' ∉ id.toList := hop id rfl
    simp only [step, getOrCreate, userFilePath_noSlash dirname id hs]
    split
    · split
      · rename_i fs1 hw
        exact keyed_write dirname fs fs1 id _ hk hs (by simp [getField_cons, getField]) hw
      · exact hk
    · split <;> exact hk
  | mergeUpdate id data now =>
    have hs : '/' ∉ id.toList := hop id rfl
    simp only [step, mergeUpdate, userFilePath_noSlash dirname id hs]
    split
    · exact hk
    · rename_i user0 hbase
      split
      · rename_i fs1 hw
        obtain ⟨kvs, e, hid⟩ := getField_mergeUser_id user0 data.written id
        rw [e] at hw
        exact keyed_write dirname fs fs1 id kvs hk hs hid hw
      · exact hk
  | appendMessage id body n1 n2 =>
    have hs : '/' ∉ id.toList := hop id rfl
    simp only [step, appendMessage, userFilePath_noSlash dirname id hs]
    split
    · exact hk
    · split
      · exact hk
      · rename_i fs1 hcreated
        have hk1 : keyed dirname fs1 := by
          split at hcreated
          · exact keyed_write dirname fs fs1 id _ hk hs (by simp [getField_cons, getField])
              hcreated
          · simp only [Option.some.injEq] at hcreated
            subst hcreated
            exact hk
        split
        · exact hk1
        · rename_i user hr
          split
          · exact hk1
          · rename_i user1 hp
            split
            · exact hk1
            · rename_i fs2 hw
              exact keyed_push dirname fs1 fs2 _ user user1 _ hk1 hr hp hw
  | listAll =>
    simp only [step, listAll, keyed_ensureDataDir dirname fs hk]
    split
    · exact hk
    · split <;> exact hk
  | broadcast body now =>
    simp only [step, broadcast, keyed_ensureDataDir dirname fs hk]
    split
    · exact hk
    · split
      · exact hk
      · rename_i files hfiles
        have hloop := fun frm text => keyed_broadcastLoop dirname frm text now files 0 fs hk
        split
        · rename_i fs2 hl
          have h2 := congrArg Prod.snd hl
          simp only at h2
          rw [← h2]
          exact hloop _ _
        · rename_i fs2 hl
          have h2 := congrArg Prod.snd hl
          simp only at h2
          rw [← h2]
          exact hloop _ _

theorem keyed_run (dirname : Path) (ops : List Op) :
    ∀ fs : FS, keyed dirname fs → (∀ op ∈ ops, op.plainId) → keyed dirname (run dirname fs ops) := by
  induction ops with
  | nil => intro fs hk _; exact hk
  | cons op rest ih =>
    intro fs hk hops
    exact ih _ (keyed_step dirname fs op hk (hops op (List.mem_cons_self _ _)))
      (fun o ho => hops o (List.mem_cons_of_mem _ ho))

/-- C9, as stated, fails: one GetOrCreate on the identifier `a/../b` from the
empty store leaves the single entry `b.json`, whose record has `a/../b` as `id`. -/
theorem getOrCreate_key_mismatch :
    readdir (run ["app"] fsEmpty [.getOrCreate "a/../b" "t0"]) (DATA_DIR ["app"])
        = some ["b.json"]
      ∧ storedField ["app"] (run ["app"] fsEmpty [.getOrCreate "a/../b" "t0"]) "b" "id"
        = some (.str "a/../b")
      ∧ (getOrCreate ["app"] fsEmpty "a/../b" "t0").1
        = .json (.obj [("id", .str "a/../b"), ("username", .str "user_a/../b"),
            ("coins", .num 0), ("level", .num 1), ("messages", .arr []),
            ("createdAt", .str "t0")]) := by
  decide

/-- C9, amended. In every state reached from an empty data directory by calls
whose identifiers contain no slash, the data directory lists each entry once and
every entry is a file `k.json` whose persisted document is a record with `id`
equal to `k`. -/
theorem key_matches_id (dirname : Path) (fs0 : FS) (ops : List Op)
    (hempty : emptyStore dirname fs0) (hops : ∀ op ∈ ops, op.plainId) :
    ∃ names, readdir (run dirname fs0 ops) (DATA_DIR dirname) = some names ∧ names.Nodup
      ∧ ∀ name ∈ names, ∃ k kvs, name = k ++ ".json"
          ∧ storedDoc dirname (run dirname fs0 ops) k = some (.obj kvs)
          ∧ getField kvs "id" = some (.str k) := by
  obtain ⟨names, hd, hnd, -, hrec⟩ :=
    keyed_run dirname ops fs0 (keyed_of_empty dirname fs0 hempty) hops
  refine ⟨names, by simp [readdir, hd], hnd, ?_⟩
  intro name hn
  obtain ⟨k, kvs, h1, h2, h3, h4⟩ := hrec name hn
  refine ⟨k, kvs, h1, ?_, h4⟩
  apply storedDoc_of_file
  rw [userFilePath_noSlash dirname k h2, ← h1]
  exact h3

end UserStore

/-! ## The claims at concrete inputs -/

namespace UserStore

/-- C7, amended, at the identifier `u` in the empty data directory of the sample. -/
theorem getOrCreate_defaults_witness :
    stat fsEmpty (userFilePath ["app"] "u") = false
      ∧ ∃ r fs1, getOrCreate ["app"] fsEmpty "u" "t0" = (.json (.obj r), fs1)
        ∧ readFile fs1 (userFilePath ["app"] "u") = some (jsonStringify (.obj r))
        ∧ getField r "id" = some (.str "u")
        ∧ getField r "username" = some (.str ("user_" ++ "u"))
        ∧ getField r "coins" = some (.num 0)
        ∧ getField r "level" = some (.num 1)
        ∧ getField r "messages" = some (.arr [])
        ∧ (∃ c, getField r "createdAt" = some (.str c) ∧ c ≠ "")
        ∧ ∀ q, q ≠ userFilePath ["app"] "u" → readFile fs1 q = readFile fsEmpty q :=
  ⟨by decide,
    getOrCreate_defaults ["app"] fsEmpty "u" ⟨"t0", by decide⟩ [] (by decide) (by decide)
      (by decide)⟩

/-- C5 at a body with an empty `from`, on a store holding a record. -/
theorem appendMessage_validates_witness :
    Body.truthy (Body.field (.obj [("from", .str ""), ("text", .str "hi")]) "from") = false
      ∧ appendMessage ["app"] fsOneMessage "u" (.obj [("from", .str ""), ("text", .str "hi")])
          "t2" "t3" = (.error 400 "missing fields", fsOneMessage) :=
  ⟨by decide,
    appendMessage_validates ["app"] fsOneMessage "u" (.obj [("from", .str ""), ("text", .str "hi")])
      "t2" "t3" (Or.inl (by decide))⟩

/-- C10 at a record whose `messages` is the string `oops`. -/
theorem appendMessage_nonSequence_witness :
    fsTextMessages (userFilePath ["app"] "u")
        = some (.file (.json (.obj [("id", .str "u"), ("createdAt", .str "t0"),
            ("messages", .str "oops")])))
      ∧ appendMessage ["app"] fsTextMessages "u"
          (.obj [("from", .str "admin"), ("text", .str "hi")]) "t2" "t3"
        = (.error 500 "message-failed", fsTextMessages) :=
  ⟨by decide,
    appendMessage_nonSequence ["app"] fsTextMessages "u"
      (.obj [("from", .str "admin"), ("text", .str "hi")]) "t2" "t3"
      [("id", .str "u"), ("createdAt", .str "t0"), ("messages", .str "oops")] (.str "oops")
      (by decide) (by decide) (by decide) (by decide) (by decide)
      (fun xs h => Json.noConfusion h)⟩

/-- C1, amended, at the example of the specification, the payload carrying another
`id`, with a number beyond the range of a double added. -/
theorem mergeUpdate_shallow_witness :
    stat fsEmpty (userFilePath ["app"] "42") = false
      ∧ ∃ r fs1, mergeUpdate ["app"] fsEmpty "42"
            (.obj [("id", .str "999"), ("coins", .num 5), ("bonus", .inf false)]) "t0"
          = (.json (.obj r), fs1)
        ∧ readFile fs1 (userFilePath ["app"] "42") = some (jsonStringify (.obj r))
        ∧ getField r "id" = some (.str "42")
        ∧ (∀ k, k ≠ "id" → getField r k
            = ((getField [("id", Body.str "999"), ("coins", Body.num 5),
                  ("bonus", Body.inf false)] k).map Body.written).or
                (getField [("id", Json.str "42"), ("createdAt", Json.str "t0")] k))
        ∧ (∀ k, hasField r k = true → k = "id"
            ∨ hasField [("id", Json.str "42"), ("createdAt", Json.str "t0")] k = true
            ∨ hasField [("id", Body.str "999"), ("coins", Body.num 5),
                ("bonus", Body.inf false)] k = true) :=
  ⟨by decide,
    mergeUpdate_shallow ["app"] fsEmpty "42"
      [("id", .str "999"), ("coins", .num 5), ("bonus", .inf false)] "t0"
      [("id", .str "42"), ("createdAt", .str "t0")] [] (by decide)
      (Or.inr ⟨by decide, by decide, rfl⟩)⟩

/-- C8 at a GetOrCreate on `u` in the empty data directory of the sample. -/
theorem getOrCreate_roundTrip_witness :
    (step ["app"] fsEmpty (.getOrCreate "u" "t0")).1
        = .json (.obj [("id", .str "u"), ("username", .str "user_u"), ("coins", .num 0),
            ("level", .num 1), ("messages", .arr []), ("createdAt", .str "t0")])
      ∧ ∃ r, storedDoc ["app"] (step ["app"] fsEmpty (.getOrCreate "u" "t0")).2 "u" = some r
        ∧ getOrCreate ["app"] (step ["app"] fsEmpty (.getOrCreate "u" "t0")).2 "u" "t1"
          = (.json r, (step ["app"] fsEmpty (.getOrCreate "u" "t0")).2)
        ∧ ((Op.getOrCreate "u" "t0").repliesRecord = true
            → .obj [("id", .str "u"), ("username", .str "user_u"), ("coins", .num 0),
                ("level", .num 1), ("messages", .arr []), ("createdAt", .str "t0")] = r) :=
  ⟨by decide,
    getOrCreate_roundTrip ["app"] fsEmpty (step ["app"] fsEmpty (.getOrCreate "u" "t0")).2
      (.getOrCreate "u" "t0") "u" _ "t1" rfl (Prod.ext (by decide) rfl)⟩

/-- C2, amended, at two MergeUpdate calls on the record of `u`. -/
theorem mergeUpdate_preserves_createdAt_witness :
    fsOneMessage (userFilePath ["app"] "u")
        = some (.file (.json (.obj [("id", .str "u"),
            ("messages", .arr [.obj [("from", .str "admin"), ("text", .str "hi"),
              ("date", .str "t1")]]),
            ("coins", .num 0), ("createdAt", .str "t0")])))
      ∧ storedField ["app"] (run ["app"] fsOneMessage
          ([(Body.obj [("coins", .num 5)], "t2"), (Body.obj [("level", .num 2)], "t3")].map
            (fun d => Op.mergeUpdate "u" d.1 d.2))) "u" "createdAt" = some (.str "t0") :=
  ⟨by decide,
    mergeUpdate_preserves_createdAt ["app"] fsOneMessage "u"
      [("id", .str "u"),
        ("messages", .arr [.obj [("from", .str "admin"), ("text", .str "hi"),
          ("date", .str "t1")]]),
        ("coins", .num 0), ("createdAt", .str "t0")] (.str "t0")
      [(Body.obj [("coins", .num 5)], "t2"), (Body.obj [("level", .num 2)], "t3")]
      (by decide) (by decide) (by decide)⟩

/-- C3, amended, at an AppendMessage on the record of `u`. -/
theorem messages_appendOnly_witness :
    (Op.appendMessage "u" (.obj [("from", .str "p1"), ("text", .str "yo")]) "t2"
        "t3").keepsMessages = true
      ∧ ∃ v1 ys, (step ["app"] fsOneMessage
            (.appendMessage "u" (.obj [("from", .str "p1"), ("text", .str "yo")]) "t2" "t3")).2
            (userFilePath ["app"] "u") = some (.file (.json v1))
        ∧ messagesOf v1 = messagesOf (.obj [("id", .str "u"),
            ("messages", .arr [.obj [("from", .str "admin"), ("text", .str "hi"),
              ("date", .str "t1")]]),
            ("coins", .num 0), ("createdAt", .str "t0")]) ++ ys :=
  ⟨by decide,
    messages_appendOnly ["app"] fsOneMessage
      (.appendMessage "u" (.obj [("from", .str "p1"), ("text", .str "yo")]) "t2" "t3")
      (userFilePath ["app"] "u") _ (by decide) (by decide)⟩

end UserStore

namespace UserStore

/-- C6, amended, at three successive appends to the fresh identifier `u`. -/
theorem appendMessage_cumulative_witness :
    stat fsEmpty (userFilePath ["app"] "u") = false
      ∧ (appendAll ["app"] fsEmpty "u" sampleRequests).1
        = sampleRequests.map
            (fun r => Response.json (.obj [("ok", .bool true), ("message", messageOf r)]))
      ∧ ∃ kvs1, (appendAll ["app"] fsEmpty "u" sampleRequests).2 (userFilePath ["app"] "u")
            = some (.file (.json (.obj kvs1)))
          ∧ getField kvs1 "messages" = some (.arr ([] ++ sampleRequests.map messageOf))
          ∧ ∀ k, k ≠ "messages" → getField kvs1 k = getField (messageStub "u" "c1") k :=
  ⟨by decide,
    (appendMessage_cumulative ["app"] fsEmpty "u" sampleRequests (messageStub "u" "c1") [] []
      (by decide) (by decide) (Or.inr ⟨by decide, by decide, _, _, rfl, rfl⟩) (by decide)).1,
    (appendMessage_cumulative ["app"] fsEmpty "u" sampleRequests (messageStub "u" "c1") [] []
      (by decide) (by decide) (Or.inr ⟨by decide, by decide, _, _, rfl, rfl⟩) (by decide)).2.1
      (List.cons_ne_nil _ _)⟩

/-- C4, amended, at a data directory with the records of two users. -/
theorem broadcast_reaches_all_witness :
    fsTwoUsers (DATA_DIR ["app"]) = some (.dir ["a.json", "b.json"])
      ∧ (broadcast ["app"] fsTwoUsers (.obj [("text", .str "hello")]) (fun _ => "t9")).1
        = .json (.obj [("ok", .bool true), ("sentTo", .num ["a.json", "b.json"].length)]) :=
  ⟨by decide,
    (broadcast_reaches_all ["app"] fsTwoUsers (.obj [("text", .str "hello")]) (.str "hello")
      (fun _ => "t9") ["a.json", "b.json"] rfl rfl (by decide) (by decide)
      (by decide)
      (by
        intro f hf
        simp only [List.mem_cons, List.mem_singleton, List.not_mem_nil, or_false] at hf
        rcases hf with rfl | rfl
        · exact ⟨by decide, by decide,
            [("id", .str "a"), ("username", .str "user_a"), ("coins", .num 0), ("level", .num 1),
              ("messages", .arr []), ("createdAt", .str "t0")], [], by decide, by decide⟩
        · exact ⟨by decide, by decide,
            [("id", .str "b"),
              ("messages", .arr [.obj [("from", .str "p1"), ("text", .str "hi"),
                ("date", .str "t2")]]),
              ("coins", .num 0), ("createdAt", .str "t1")],
            [.obj [("from", .str "p1"), ("text", .str "hi"), ("date", .str "t2")]],
            by decide, by decide⟩)).1⟩

/-- C9, amended, at a run of one call of each kind from the empty data directory
of the sample. -/
theorem key_matches_id_witness :
    fsEmpty (DATA_DIR ["app"]) = some (.dir [])
      ∧ ∃ names, readdir (run ["app"] fsEmpty sampleOps) (DATA_DIR ["app"]) = some names
        ∧ names.Nodup
        ∧ ∀ name ∈ names, ∃ k kvs, name = k ++ ".json"
            ∧ storedDoc ["app"] (run ["app"] fsEmpty sampleOps) k = some (.obj kvs)
            ∧ getField kvs "id" = some (.str k) :=
  ⟨by decide,
    key_matches_id ["app"] fsEmpty sampleOps
      ⟨by decide, fun name => by
        have hd : DATA_DIR ["app"] = ["app", "data", "users"] := by decide
        rw [hd]
        simp [fsEmpty, FS.ofList, List.lookup]⟩
      (by
        intro op hop
        simp only [sampleOps, List.mem_cons, List.mem_singleton, List.not_mem_nil,
          or_false] at hop
        rcases hop with rfl | rfl | rfl | rfl | rfl <;> intro id hid <;>
          simp only [Op.userId, Option.some.injEq] at hid <;>
          first
            | (subst hid; decide)
            | exact absurd hid (by simp))⟩

end UserStore
